import Mathlib

/-!
Verification development for the permissivecsv repository.

The Go sources are shallowly embedded: Go strings and byte slices become
`List Char` (all data of interest is single-byte), Go `int`/`int64` values that
stay non-negative become `Nat` (counters, offsets, lengths) while values that
can be `-1` sentinels become `Int`, fallible operations return `Except`/`Option`,
and the mutable scanner becomes explicit state passing over a `Scanner`
structure.  Definitions are translated from the source files
(`internal/util/util.go`, `internal/linesplit/api.go`, `permissivecsv.go`);
definitions that instead follow the specification's words are named `spec...`
and documented as such.
-/

namespace PermissiveCsv

/-- Convert a literal to the character-list representation used throughout. -/
def chars (s : String) : List Char :=
  s.data

/-- `matchesAt s pat i` holds when `pat` occurs in `s` starting at index `i`.
This models a match of the `regexp.QuoteMeta`-escaped needle, i.e. a literal
substring occurrence. -/
def matchesAt (s pat : List Char) (i : Nat) : Bool :=
  (s.drop i).take pat.length == pat

/-- Model of Go `re.FindAllStringIndex(s, -1)` for a literal pattern:
the leftmost, non-overlapping occurrences, scanning from index `i`.
Each entry is a half-open span `(start, end)`.  The scan advances by at least
one position per step, so any `fuel` exceeding `s.length - i` (and the
`s.length + 1` used below in particular) yields the full scan. -/
def litScanF (s pat : List Char) : Nat → Nat → List (Nat × Nat)
  | _, 0 => []
  | i, fuel + 1 =>
    if i < s.length then
      if matchesAt s pat i then
        (i, i + pat.length) :: litScanF s pat (i + Nat.max pat.length 1) fuel
      else
        litScanF s pat (i + 1) fuel
    else
      []

/-- All leftmost non-overlapping literal occurrences of `pat` in `s`. -/
def litMatches (s pat : List Char) : List (Nat × Nat) :=
  litScanF s pat 0 (s.length + 1)

/-- `noNL l` holds when no character of `l` is a line feed; Go's regexp `.`
matches any character except `\n`. -/
def noNL (l : List Char) : Bool :=
  l.all (fun c => c ≠ '\n')

/-- Second half of the quoted-region pattern: from position `j`, greedily
consume `.*` (longest first, Go's leftmost-first semantics) and then require
a closing double quote.  Returns the end (exclusive) of the whole match. -/
def qmTryClose (s : List Char) (j : Nat) : Option Nat :=
  ((List.range (s.length + 1)).reverse).findSome? (fun m =>
    if noNL ((s.drop j).take m) ∧ s.get? (j + m) = some '"' then
      some (j + m + 1)
    else
      none)

/-- First half of the quoted-region pattern after the opening quote at `q - 1`:
greedily consume `.*`, then the literal needle, then delegate to
`qmTryClose`.  Models the backtracking (leftmost-first, greedy) match of
`".*" ++ pat ++ ".*" ++ "\x22"` that Go's non-POSIX regexp engine produces. -/
def qmTryK (s pat : List Char) (q : Nat) : Option Nat :=
  ((List.range (s.length + 1)).reverse).findSome? (fun k =>
    if noNL ((s.drop q).take k) ∧ matchesAt s pat (q + k) then
      qmTryClose s (q + k + pat.length)
    else
      none)

/-- Leftmost-first match of the quoted-region regex `"  .*  pat  .*  "`
starting exactly at position `i` (which must hold the opening quote). -/
def quotedMatchEnd (s pat : List Char) (i : Nat) : Option Nat :=
  if s.get? i = some '"' then qmTryK s pat (i + 1) else none

/-- Model of Go `reQuoted.FindAllStringIndex(s, -1)`: leftmost,
non-overlapping matches of the quoted-region pattern, scanning from `i`;
`fuel` as in `litScanF`. -/
def qScanF (s pat : List Char) : Nat → Nat → List (Nat × Nat)
  | _, 0 => []
  | i, fuel + 1 =>
    if i < s.length then
      match quotedMatchEnd s pat i with
      | some e => (i, e) :: qScanF s pat (Nat.max e (i + 1)) fuel
      | none => qScanF s pat (i + 1) fuel
    else
      []

/-- All quoted-region matches for needle `pat` in `s`. -/
def quotedMatches (s pat : List Char) : List (Nat × Nat) :=
  qScanF s pat 0 (s.length + 1)

/-- Embedding of `util.IndexNonQuoted` (internal/util/util.go, lines 10-47).
The Go function is regex based: it collects all literal occurrences of the
needle and all matches of the pattern `"  .*  needle  .*  "`, then compares
and intersects the two lists exactly as the source does. -/
def IndexNonQuoted (s pat : List Char) : Int :=
  match litMatches s pat with
  | [] => -1
  | m0 :: ms =>
    let mAll := m0 :: ms
    let mq := quotedMatches s pat
    if mq.isEmpty then (m0.1 : Int)
    else if mq.length = mAll.length then -1
    else
      let mq1 := mq.map (fun p => (p.1 + 1, p.2 - 1))
      match mAll.find? (fun m => mq1.any (fun q =>
          (decide (m.1 < q.1) && decide (m.2 < q.2)) ||
          (decide (m.1 > q.1) && decide (m.2 > q.2)))) with
      | some m => (m.1 : Int)
      | none => -1

/-- Modelled from the spec: the quote-parity bit at position `i`, i.e. the
parity of the number of double quotes strictly before `i`. -/
def quoteParityAt (s : List Char) (i : Nat) : Nat :=
  ((s.take i).countP (fun c => c = '"')) % 2

/-- Modelled from the spec: `index_non_quoted` under the left-to-right
quote-parity rule.  An occurrence at `i` is accepted iff the parity bit is 0
at `i` and at `i + len(needle) - 1`; the earliest accepted occurrence wins,
and the result is `-1` when none is accepted. -/
def specIndexNonQuoted (s pat : List Char) : Int :=
  match (List.range s.length).find? (fun i =>
      matchesAt s pat i &&
      decide (quoteParityAt s i = 0) &&
      decide (quoteParityAt s (i + pat.length - 1) = 0)) with
  | some i => (i : Int)
  | none => -1

/-- The first literal occurrence of `pat` in `s`, independently of the
scanning machinery above (used to state the amended claim C5). -/
def firstMatchIdx (s pat : List Char) : Option Nat :=
  (List.range s.length).find? (fun i => matchesAt s pat i)

/-! ## Line splitter (internal/linesplit/api.go, lines 27-112) -/

/-- The DOS terminator `\r\n`. -/
def dosT : List Char := ['\r', '\n']

/-- The inverted DOS terminator `\n\r`. -/
def invdosT : List Char := ['\n', '\r']

/-- Result of one `Splitter.Split` call.  `advance`/`token` are the bufio
split-function outputs, `final` records `bufio.ErrFinalToken`, and `term` is
the splitter's `currentTerminator` field after the call (`none` models a nil
slice, `some []` an empty one). -/
structure SplitOut where
  advance : Nat
  token : Option (List Char)
  final : Bool
  term : Option (List Char)
deriving Repr, DecidableEq

/-- Two-byte candidate selection of `Split` (lines 41-60): the inverted-DOS
check, then the DOS check with the lower-index tie-break.  Returns the chosen
terminator and the `nearestTerminator` index (`-1` when none). -/
def pick2 (dosIndex invDosIndex nlIndex crIndex : Int) : Option (List Char) × Int :=
  let st1 : Option (List Char) × Int :=
    if invDosIndex ≠ -1 ∧ nlIndex = invDosIndex ∧ crIndex > nlIndex then
      (some invdosT, invDosIndex)
    else
      (none, -1)
  if dosIndex ≠ -1 ∧ crIndex = dosIndex ∧ nlIndex > crIndex then
    if st1.2 = -1 then (some dosT, dosIndex)
    else if dosIndex < st1.2 then (some dosT, dosIndex)
    else st1
  else st1

/-- Single-byte candidate selection of `Split` (lines 74-84): LF first, then
CR only if no LF was found. -/
def pick1 (nlIndex crIndex : Int) : Option (List Char) × Int :=
  let st3 : Option (List Char) × Int :=
    if nlIndex ≠ -1 then (some ['\n'], nlIndex) else (none, -1)
  if crIndex ≠ -1 ∧ st3.2 = -1 then (some ['\r'], crIndex) else st3

/-- Embedding of `Splitter.Split`.  In every integrated run the `data` slice
handed over by `bufio.Scanner` is non-nil (the buffer is allocated before the
first read), so the source's `data != nil` test in the final-token branch is
modelled as always true. -/
def splitGo (data : List Char) (atEOF : Bool) : SplitOut :=
  let len : Int := data.length
  let st2 := pick2 (IndexNonQuoted data dosT) (IndexNonQuoted data invdosT)
    (IndexNonQuoted data ['\n']) (IndexNonQuoted data ['\r'])
  if st2.2 ≠ -1 then
    if st2.2 = len - 2 then
      ⟨0, none, false, none⟩
    else
      ⟨(st2.2 + 2).toNat, some (data.take (st2.2 + 2).toNat), false, st2.1⟩
  else
    let st4 := pick1 (IndexNonQuoted data ['\n']) (IndexNonQuoted data ['\r'])
    if st4.2 ≠ -1 then
      if st4.2 = len - 1 then
        ⟨0, none, false, none⟩
      else
        ⟨(st4.2 + 1).toNat, some (data.take (st4.2 + 1).toNat), false, st4.1⟩
    else if ¬ atEOF then
      ⟨0, none, false, none⟩
    else
      ⟨0, some data, true, some []⟩

/-! ## bufio.Scanner driver

The scanner drives `Splitter.Split` through `bufio.Scanner`.  For an
in-memory source that fits in one buffer fill (sources up to the initial
4096-byte buffer; every concrete input below is far smaller), the whole
remaining input is in the buffer after the first read and the next read
reports end of file.  `BufState` carries the remaining window `rem`, whether
end of file has been observed (`eofSeen`), the `done` flag set by
`ErrFinalToken`, the last token (`none` models `s.token = nil`), and the
splitter's `currentTerminator` field. -/

/-- State of the `bufio.Scanner` together with the splitter it drives. -/
structure BufState where
  rem : List Char
  eofSeen : Bool
  done : Bool
  token : Option (List Char)
  term : Option (List Char)
deriving Repr, DecidableEq

/-- One call of the split function: apply `splitGo` to the current window and
fold its outputs into the state exactly as `bufio.Scanner.Scan` does
(`s.token = token` is assigned even when the token is nil).  The returned
`Bool` says whether a token was produced. -/
def bufSplitOnce (st : BufState) : BufState × Bool :=
  let r := splitGo st.rem st.eofSeen
  if r.final then
    ({st with done := true, token := r.token, term := r.term}, true)
  else
    match r.token with
    | some t => ({st with rem := st.rem.drop r.advance, token := some t, term := r.term}, true)
    | none => ({st with token := none, term := r.term}, false)

/-- Embedding of one `bufio.Scanner.Scan` call under the one-buffer-fill
reader model: if the split function asks for more data, the next read either
reports end of file (first time) or the scanner shuts down, discarding the
buffer (`s.start = 0; s.end = 0`). -/
def bufScan (st : BufState) : Bool × BufState :=
  if st.done then
    (false, st)
  else if st.rem ≠ [] ∨ st.eofSeen then
    match bufSplitOnce st with
    | (st1, true) => (true, st1)
    | (st1, false) =>
      if st.eofSeen then
        (false, {st1 with rem := []})
      else
        let st2 : BufState := {st1 with eofSeen := true}
        match bufSplitOnce st2 with
        | (st3, true) => (true, st3)
        | (st3, false) => (false, {st3 with rem := []})
  else
    let st2 : BufState := {st with eofSeen := true}
    match bufSplitOnce st2 with
    | (st3, true) => (true, st3)
    | (st3, false) => (false, {st3 with rem := []})

/-! ## CSV field parsing (encoding/csv, default configuration)

`Scanner.Scan` replaces embedded `\n`/`\r` by placeholder tokens and hands a
single newline-free line to `csv.Reader.Read`; the errors it inspects are
`ErrQuote` ("extraneous or missing quote in quoted-field") and `ErrBareQuote`
("bare quote in non-quoted-field"). -/

/-- The two csv parse failures the scanner distinguishes. -/
inductive QuoteErr
  | bareQuote
  | extraneousQuote
deriving Repr, DecidableEq

/-- Parse the remainder of a quoted csv field (the opening quote already
consumed): a doubled quote escapes a literal quote, a quote before a comma
ends the field, a quote at end of data ends the record, a quote before any
other character is `ErrQuote`, and an unterminated field is `ErrQuote`. -/
def parseQuotedField : List Char → List Char → Except QuoteErr (List Char × Option (List Char))
  | [], _ => .error .extraneousQuote
  | '"' :: rest, acc =>
    match rest with
    | '"' :: rest2 => parseQuotedField rest2 (acc ++ ['"'])
    | ',' :: rest2 => .ok (acc, some rest2)
    | [] => .ok (acc, none)
    | _ => .error .extraneousQuote
  | c :: rest, acc => parseQuotedField rest (acc ++ [c])

/-- Parse all fields of one newline-free csv line.  A field starting with a
double quote is quoted; otherwise the field runs to the next comma and any
double quote inside it is `ErrBareQuote`.  `fuel` bounds recursion (the line
shrinks by at least one character per field, so `length + 1` always
suffices). -/
def parseFieldsGo (fuel : Nat) (s : List Char) : Except QuoteErr (List (List Char)) :=
  match fuel with
  | 0 => .ok []
  | fuel1 + 1 =>
    match s with
    | [] => .ok [[]]
    | '"' :: rest =>
      match parseQuotedField rest [] with
      | .error e => .error e
      | .ok (f, none) => .ok [f]
      | .ok (f, some rest2) =>
        match parseFieldsGo fuel1 rest2 with
        | .ok fs => .ok (f :: fs)
        | .error e => .error e
    | s1 =>
      let field := s1.takeWhile (fun c => c ≠ ',')
      let rest := s1.dropWhile (fun c => c ≠ ',')
      if field.contains '"' then .error .bareQuote
      else
        match rest with
        | [] => .ok [field]
        | _ :: rest2 =>
          match parseFieldsGo fuel1 rest2 with
          | .ok fs => .ok (field :: fs)
          | .error e => .error e

/-- `csv.Reader.Read` on a single newline-free line. -/
def parseFields (s : List Char) : Except QuoteErr (List (List Char)) :=
  parseFieldsGo (s.length + 1) s

/-- Model of `strings.Replace(s, pat, rep, -1)` for a non-empty pattern:
replace every (leftmost, non-overlapping) occurrence.  Each step consumes at
least one character of the subject, so `fuel = s.length` yields the full
replacement. -/
def replaceAllF (pat rep : List Char) : List Char → Nat → List Char
  | s, 0 => s
  | [], _ => []
  | c :: rest, fuel + 1 =>
    if pat ≠ [] ∧ (c :: rest).take pat.length = pat then
      rep ++ replaceAllF pat rep ((c :: rest).drop pat.length) fuel
    else
      c :: replaceAllF pat rep rest fuel

/-- `strings.Replace(s, pat, rep, -1)`. -/
def replaceAll (pat rep s : List Char) : List Char :=
  replaceAllF pat rep s s.length

/-- The line-feed placeholder from `util.TokenizeTerminators`. -/
def tokenNL : List Char := chars "LINEFEED7540c64c"

/-- The carriage-return placeholder from `util.TokenizeTerminators`. -/
def tokenCR : List Char := chars "CARRIAGERETURNa1cde9f4"

/-- Embedding of `util.TokenizeTerminators`. -/
def tokenizeTerminators (s : List Char) : List Char :=
  replaceAll ['\r'] tokenCR (replaceAll ['\n'] tokenNL s)

/-- Embedding of `util.ResetTerminatorTokens`. -/
def resetTerminatorTokens (fields : List (List Char)) : List (List Char) :=
  fields.map (fun f => replaceAll tokenCR ['\r'] (replaceAll tokenNL ['\n'] f))

/-! ## Scanner (permissivecsv.go) -/

/-- The four alteration kinds. -/
inductive AltKind
  | bareQuote
  | extraneousQuote
  | truncatedRecord
  | paddedRecord
deriving Repr, DecidableEq

/-- The only error value ever stored in a summary (`ErrReaderIsNil`). -/
inductive ScanErr
  | readerIsNil
deriving Repr, DecidableEq

/-- Embedding of `Alteration`. -/
structure Alteration where
  recordOrdinal : Int
  originalData : List Char
  resultingRecord : List (List Char)
  kind : AltKind
deriving Repr, DecidableEq

/-- Embedding of `ScanSummary` (the pretty-printing `String` method is out of
scope). -/
structure ScanSummary where
  recordCount : Int
  alterationCount : Int
  alterations : List Alteration
  eof : Bool
  err : Option ScanErr
deriving Repr, DecidableEq

/-- The zero-valued summary allocated on the first `Scan` call. -/
def freshSummary : ScanSummary :=
  ⟨0, 0, [], false, none⟩

/-- Embedding of `Scanner`.  `readerNil` models a nil `io.Reader`; the header
check callback is passed separately to the operations that need it. -/
structure Scanner where
  readerNil : Bool
  buf : BufState
  expectedFieldCount : Nat
  recordsScanned : Nat
  scanSummary : Option ScanSummary
  currentRecord : List (List Char)
  firstRecord : Option (List (List Char))
  bytesUnclaimed : Nat
deriving Repr, DecidableEq

/-- Embedding of `NewScanner` over an optional in-memory source (`none`
models a nil reader). -/
def mkScanner (src : Option (List Char)) : Scanner :=
  { readerNil := src.isNone
  , buf := ⟨src.getD [], false, false, none, none⟩
  , expectedFieldCount := 0
  , recordsScanned := 0
  , scanSummary := none
  , currentRecord := []
  , firstRecord := none
  , bytesUnclaimed := 0 }

/-- Apply `f` to the summary when one is allocated (in the source the summary
is always allocated before these updates run). -/
def withSummary (s : Scanner) (f : ScanSummary → ScanSummary) : Scanner :=
  {s with scanSummary := s.scanSummary.map f}

/-- Embedding of `Scanner.appendAlteration`. -/
def appendAlt (s : Scanner) (orig : List Char) (rec1 : List (List Char)) (k : AltKind) : Scanner :=
  withSummary s (fun m =>
    {m with alterationCount := m.alterationCount + 1,
            alterations := m.alterations ++ [⟨m.recordCount, orig, rec1, k⟩]})

/-- Result of the empty-record skip loop in `Scanner.Scan` (lines 195-203):
the current raw record and terminator, whether the inner scanner still
reports a token, the inner state, and the updated `bytesUnclaimed`. -/
structure LoopOut where
  raw : List Char
  term : Option (List Char)
  more : Bool
  buf : BufState
  unclaimed : Nat
deriving Repr, DecidableEq

/-- The skip loop of `Scanner.Scan`: while the raw record equals the current
terminator (an empty record) and the inner scanner has more, consume it and
account its bytes in `bytesUnclaimed`.  Each productive inner scan consumes
input or sets `done`, so `rem.length + 2` fuel always suffices. -/
def skipLoop (fuel : Nat) (more : Bool) (buf : BufState) (unclaimed : Nat) : LoopOut :=
  let raw := buf.token.getD []
  let term := buf.term
  match fuel with
  | 0 => ⟨raw, term, more, buf, unclaimed⟩
  | fuel1 + 1 =>
    if raw = term.getD [] ∧ more then
      let unclaimed1 := unclaimed + (term.getD []).length
      let r := bufScan buf
      skipLoop fuel1 r.1 r.2 unclaimed1
    else
      ⟨raw, term, more, buf, unclaimed⟩

/-- Width reconciliation of `Scanner.Scan` (lines 241-248): truncate or pad a
record to the expected field count; the booleans report (truncated, padded). -/
def reconcile (expected : Nat) (rec1 : List (List Char)) : List (List Char) × Bool × Bool :=
  if rec1.length > expected then (rec1.take expected, true, false)
  else if rec1.length < expected then
    (rec1 ++ List.replicate (expected - rec1.length) [], false, true)
  else (rec1, false, false)

/-- Field parsing of one trimmed raw record (lines 217-234): empty payload
becomes one empty field, otherwise terminators are tokenized, the line goes
through the csv field parser, a quote failure empties the record and raises
the matching flag, and placeholder tokens are restored.  Returns
(record, extraneous-quote flag, bare-quote flag). -/
def parsePayload (trimmed : List Char) : List (List Char) × Bool × Bool :=
  if trimmed = [] then ([[]], false, false)
  else
    match parseFields (tokenizeTerminators trimmed) with
    | .ok fields => (resetTerminatorTokens fields, false, false)
    | .error .extraneousQuote => (resetTerminatorTokens [], true, false)
    | .error .bareQuote => (resetTerminatorTokens [], false, true)

/-- Record processing of `Scanner.Scan` after the skip loop has delivered a
non-empty raw record (lines 209-275). -/
def processRecord (s : Scanner) (raw : List Char) (term : Option (List Char)) : Bool × Scanner :=
  let s1 := withSummary s (fun m => {m with recordCount := m.recordCount + 1})
  let termStr := term.getD []
  let trimmed :=
    if termStr.length > 0 ∧ termStr.isSuffixOf raw then
      raw.take (raw.length - termStr.length)
    else raw
  let pr := parsePayload trimmed
  let rec0 := pr.1
  let exQ := pr.2.1
  let bareQ := pr.2.2
  let rs := s1.recordsScanned + 1
  let expected := if rs = 1 then rec0.length else s1.expectedFieldCount
  let rc := reconcile expected rec0
  let rec1 := rc.1
  let truncated := rc.2.1
  let padded := rc.2.2
  let s2 := {s1 with recordsScanned := rs
                   , expectedFieldCount := expected
                   , currentRecord := rec1
                   , firstRecord := if rs = 1 then some rec1 else none}
  let s3 :=
    if exQ then appendAlt s2 trimmed rec1 .extraneousQuote
    else if bareQ then appendAlt s2 trimmed rec1 .bareQuote
    else if truncated then appendAlt s2 trimmed rec1 .truncatedRecord
    else if padded then appendAlt s2 trimmed rec1 .paddedRecord
    else s2
  (true, s3)

/-- Embedding of `Scanner.Scan` (lines 166-276). -/
def scanStep (s : Scanner) : Bool × Scanner :=
  let s0 :=
    match s.scanSummary with
    | none => {s with scanSummary := some freshSummary}
    | some _ => s
  if s0.readerNil then
    (false, withSummary s0 (fun m =>
      {m with err := some .readerIsNil, recordCount := -1, alterationCount := -1, eof := false}))
  else
    let r0 := bufScan s0.buf
    if ¬ r0.1 then
      (false, withSummary {s0 with buf := r0.2} (fun m => {m with eof := true}))
    else
      let lo := skipLoop (r0.2.rem.length + 2) r0.1 r0.2 s0.bytesUnclaimed
      let s1 := {s0 with buf := lo.buf, bytesUnclaimed := lo.unclaimed}
      if lo.raw = [] ∧ (lo.term.getD []).length = 0 then
        (false, s1)
      else
        processRecord s1 lo.raw lo.term

/-- Embedding of `Scanner.Reset` (lines 292-294).  The Go method assigns the
fresh scanner to the local receiver variable `s`, a plain pointer-valued
parameter, so the caller's scanner is left untouched: for the caller the
method is the identity (creating the unused fresh scanner has no observable
effect on the reader). -/
def Scanner.Reset (s : Scanner) : Scanner :=
  s

/-- Embedding of `Scanner.Summary`. -/
def Scanner.Summary (s : Scanner) : Option ScanSummary :=
  s.scanSummary

/-- Embedding of `Scanner.CurrentRecord`. -/
def Scanner.CurrentRecordOf (s : Scanner) : List (List Char) :=
  s.currentRecord

/-- A header-check callback (`HeaderCheck`): it receives the scanner's
`firstRecord` (or none). -/
def HeaderCheckFn : Type :=
  Option (List (List Char)) → Bool

/-- `HeaderCheckAssumeNoHeader`. -/
def headerCheckAssumeNoHeader : HeaderCheckFn :=
  fun _ => false

/-- `HeaderCheckAssumeHeaderExists`: true unless the first record is nil. -/
def headerCheckAssumeHeaderExists : HeaderCheckFn :=
  fun fr => fr.isSome

/-- Embedding of `Scanner.RecordIsHeader` for a given callback. -/
def recordIsHeader (hc : HeaderCheckFn) (s : Scanner) : Bool :=
  hc s.firstRecord

/-- Iterated scanner states: `scanStates src k` is the scanner after `k`
advance calls. -/
def scanStates (src : Option (List Char)) : Nat → Scanner
  | 0 => mkScanner src
  | k + 1 => (scanStep (scanStates src k)).2

/-- The boolean returned by the `(k+1)`-st advance call. -/
def scanRets (src : Option (List Char)) (k : Nat) : Bool :=
  (scanStep (scanStates src k)).1

/-- Run the scanner collecting every emitted record (`fuel` bounds the number
of advance calls). -/
def runScan : Nat → Scanner → List (List (List Char))
  | 0, _ => []
  | fuel + 1, s =>
    match scanStep s with
    | (true, s1) => s1.currentRecord :: runScan fuel s1
    | (false, _) => []

/-- All records emitted by scanning `src` with at most `fuel` advances. -/
def emittedRecords (fuel : Nat) (src : Option (List Char)) : List (List (List Char)) :=
  runScan fuel (mkScanner src)

/-! ## Partition (permissivecsv.go, lines 402-451) -/

/-- Embedding of `Segment`.  Ordinal, offset and length are `int64` in Go but
never negative here, so they are carried as `Nat`. -/
structure Segment where
  ordinal : Nat
  lowerOffset : Nat
  length : Nat
deriving Repr, DecidableEq

/-- One closing of a segment. -/
def closeSegment (ordinal lowerOffset : Nat) (currentRaw : List Char) (unclaimed : Nat) : Segment :=
  ⟨ordinal, lowerOffset, currentRaw.length + unclaimed⟩

/-- The `for s.Scan()` loop of `Partition` with its loop variables made
explicit; `fuel` bounds the number of iterations. On exhausted fuel the final
segment is closed exactly as on normal loop exit. -/
def partitionGo (hc : HeaderCheckFn) (n : Nat) (excludeHeader : Bool) :
    Nat → Scanner → Nat → Nat → List Segment → Bool → List Char → Nat → List Segment
  | 0, s, ordinal, lowerOffset, segments, _, currentRaw, recordsInSeg =>
    if recordsInSeg > 0 then
      segments ++ [closeSegment (ordinal + 1) lowerOffset currentRaw s.bytesUnclaimed]
    else segments
  | fuel + 1, s, ordinal, lowerOffset, segments, headerEvaluated, currentRaw, recordsInSeg =>
    match scanStep s with
    | (false, s1) =>
      if recordsInSeg > 0 then
        segments ++ [closeSegment (ordinal + 1) lowerOffset currentRaw s1.bytesUnclaimed]
      else segments
    | (true, s1) =>
      let text := s1.buf.token.getD []
      if ¬ headerEvaluated ∧ excludeHeader ∧ recordIsHeader hc s1 then
        partitionGo hc n excludeHeader fuel {s1 with bytesUnclaimed := 0} ordinal
          (text.length + s1.bytesUnclaimed) segments true currentRaw recordsInSeg
      else
        let lowerOffset1 := if ¬ headerEvaluated then 0 else lowerOffset
        if recordsInSeg = n then
          let seg := closeSegment (ordinal + 1) lowerOffset1 currentRaw s1.bytesUnclaimed
          partitionGo hc n excludeHeader fuel {s1 with bytesUnclaimed := 0} (ordinal + 1)
            (lowerOffset1 + currentRaw.length + s1.bytesUnclaimed) (segments ++ [seg]) true
            text 1
        else
          partitionGo hc n excludeHeader fuel s1 ordinal lowerOffset1 segments true
            (currentRaw ++ text) (recordsInSeg + 1)

/-- Embedding of `Scanner.Partition`: reset (a caller-visible no-op, see
`Scanner.Reset`), then run the loop.  Each successful advance consumes at
least one source byte, so `rem.length + 2` iterations always suffice. -/
def Partition (hc : HeaderCheckFn) (s : Scanner) (n : Nat) (excludeHeader : Bool) : List Segment :=
  let s0 := Scanner.Reset s
  partitionGo hc n excludeHeader (s0.buf.rem.length + 2) s0 0 0 [] false [] 0

/-! ## Theorems for the claims -/

/-- Claim C2 (code-bug evidence).  At end of file with a two-byte terminator
whose index is `len(data) - 2` (input `"a,b,c\r\n"`, `at_eof = true`), and at
end of file with a single-byte terminator at `len(data) - 1` (input `"a\n"`),
`Split` still returns the need-more result `(0, nil, nil)`: the boundary
checks ignore `atEOF`, so the trailing record is lost instead of emitted.
The splitter's own unit test "terminator at end of file" expects
`(7, "a,b,c\r\n", nil)` here, as do the specification's steps 4.B.3/4.B.5. -/
theorem C2_split_requests_more_at_eof :
    splitGo (chars "a,b,c\r\n") true = ⟨0, none, false, none⟩ ∧
    splitGo (chars "a\n") true = ⟨0, none, false, none⟩ := by
  decide

set_option maxHeartbeats 4000000 in
/-- Claim C3 counterexample.  For the source `"a\n"`, which ends with a
single dangling LF after its only data record, the scan emits no record at
all — in particular no additional all-empty record — and the final record
count is 0, not 2 as the claim requires. -/
theorem C3_counterexample :
    emittedRecords 8 (some (chars "a\n")) = [] ∧
    (scanStates (some (chars "a\n")) 1).scanSummary = some ⟨0, 0, [], true, none⟩ := by
  decide

set_option maxHeartbeats 4000000 in
/-- Claim C3 amended.  For a source that ends with a single dangling LF after
the last data record, the scan emits no additional empty-padded record and the
record count does not include one; instead, because the splitter requests more
data even at end of file when the terminator closes the window, the final data
record is itself dropped: `"a\n"` emits nothing (record count 0) and
`"a,b\nc,d\n"` emits only `["a","b"]` (record count 1). -/
theorem C3_amended :
    emittedRecords 8 (some (chars "a\n")) = [] ∧
    emittedRecords 8 (some (chars "a,b\nc,d\n")) = [[chars "a", chars "b"]] ∧
    (scanStates (some (chars "a,b\nc,d\n")) 2).scanSummary =
      some ⟨1, 0, [], true, none⟩ := by
  decide

set_option maxHeartbeats 4000000 in
/-- Claim C4 counterexample.  On the empty source with a non-nil reader the
first advance returns `false` (the inner scanner's empty final token with an
empty terminator is treated as end of input), not `true` with `[""]`. -/
theorem C4_counterexample :
    scanRets (some (chars "")) 0 = false ∧
    (scanStates (some (chars "")) 1).currentRecord = [] := by
  decide

set_option maxHeartbeats 4000000 in
/-- Claim C4 amended.  For the empty source with a non-nil reader the first
advance returns `false` and emits nothing (the current record stays empty and
the record count stays 0), and the next advance returns `false` as well. -/
theorem C4_amended :
    scanRets (some (chars "")) 0 = false ∧
    scanRets (some (chars "")) 1 = false ∧
    emittedRecords 8 (some (chars "")) = [] ∧
    (scanStates (some (chars "")) 1).scanSummary = some ⟨0, 0, [], false, none⟩ := by
  decide

/-- Claim C5 counterexample.  At haystack `"b` (one double quote then `b`)
with needle `b`, the quote-parity rule rejects the only occurrence (parity 1
at index 1), so the claimed result is `-1`; the regex-based source code
returns `1`.  The two disagree in the other direction as well: at haystack
`"x"y"z"` with needle `y` the parity rule accepts index 3 while the code
returns `-1`. -/
theorem C5_counterexample :
    (IndexNonQuoted (chars "\"b") (chars "b") = 1 ∧
      specIndexNonQuoted (chars "\"b") (chars "b") = -1) ∧
    (IndexNonQuoted (chars "\"x\"y\"z\"") (chars "y") = -1 ∧
      specIndexNonQuoted (chars "\"x\"y\"z\"") (chars "y") = 3) := by
  decide

set_option maxHeartbeats 4000000 in
/-- Without any double quote in the haystack no quoted-region match can
start anywhere, so the quoted scan is empty. -/
theorem qScanF_empty_of_no_quote (s pat : List Char) (hq : '"' ∉ s) :
    ∀ fuel i, qScanF s pat i fuel = [] := by
  intro fuel
  induction fuel with
  | zero => intro i; rfl
  | succ f ih =>
    intro i
    rw [qScanF]
    by_cases hi : i < s.length
    · simp only [hi, if_true]
      have hnone : quotedMatchEnd s pat i = none := by
        rw [quotedMatchEnd]
        have hne : s.get? i ≠ some '"' := fun hget => hq (List.get?_mem hget)
        rw [if_neg hne]
      rw [hnone]
      exact ih (i + 1)
    · simp [hi]

/-- The head of the literal scan from `i` is the first occurrence at or after
`i`, provided the fuel covers the remaining positions. -/
theorem litScanF_head (s pat : List Char) :
    ∀ fuel i, s.length - i < fuel →
      (litScanF s pat i fuel).head?.map Prod.fst =
        (List.range' i (s.length - i)).find? (fun j => matchesAt s pat j) := by
  intro fuel
  induction fuel with
  | zero => intro i h; omega
  | succ f ih =>
    intro i h
    rw [litScanF]
    by_cases hi : i < s.length
    · have hr : s.length - i = (s.length - (i + 1)) + 1 := by omega
      rw [hr, List.range'_succ, List.find?_cons]
      by_cases hm : matchesAt s pat i
      · simp [hi, hm]
      · simp only [hi, if_true, hm, if_false, Bool.false_eq_true]
        have := ih (i + 1) (by omega)
        simpa using this
    · have hr : s.length - i = 0 := by omega
      simp [hi, hr]

/-- Claim C5 amended.  The implementation is regex based, not parity based
(see the counterexample); what survives of the claim is: for every haystack
that contains no double quote and every non-empty needle, `IndexNonQuoted`
returns the position of the first occurrence of the needle, and `-1` when
there is no occurrence. -/
theorem C5_amended (s pat : List Char) (hpat : pat ≠ []) (hq : '"' ∉ s) :
    IndexNonQuoted s pat =
      (match firstMatchIdx s pat with
       | some i => (i : Int)
       | none => -1) := by
  have hscan := litScanF_head s pat (s.length + 1) 0 (by omega)
  have hq0 : quotedMatches s pat = [] := qScanF_empty_of_no_quote s pat hq (s.length + 1) 0
  have hfirst : firstMatchIdx s pat =
      (List.range' 0 (s.length - 0)).find? (fun j => matchesAt s pat j) := by
    rw [firstMatchIdx, List.range_eq_range']
    norm_num
  rw [IndexNonQuoted]
  cases hm : litMatches s pat with
  | nil =>
    rw [litMatches] at hm
    rw [hm] at hscan
    simp only [List.head?_nil, Option.map_none'] at hscan
    rw [hfirst, ← hscan]
  | cons m0 ms =>
    rw [litMatches] at hm
    rw [hm] at hscan
    simp only [List.head?_cons, Option.map_some'] at hscan
    rw [hfirst, ← hscan]
    simp [hq0]

/-- Claim C5 amended, witness at a concrete input: haystack `abc`, needle
`b`, first occurrence at index 1. -/
theorem C5_amended_witness :
    (chars "b" ≠ [] ∧ '"' ∉ chars "abc") ∧
      IndexNonQuoted (chars "abc") (chars "b") =
        (match firstMatchIdx (chars "abc") (chars "b") with
         | some i => (i : Int)
         | none => -1) :=
  ⟨⟨by decide, by decide⟩, C5_amended (chars "abc") (chars "b") (by decide) (by decide)⟩

/-- Claim C7 (code-bug evidence).  After one successful advance over the
source `"a"`, calling `Reset` leaves the accumulated summary in place
(record count 1), because the Go method assigns the fresh scanner only to
its local receiver variable; the claim — and the method's own documentation —
say the summary is discarded and `Summary()` returns nil afterwards. -/
theorem C7_reset_keeps_summary :
    scanRets (some (chars "a")) 0 = true ∧
    Scanner.Summary (Scanner.Reset (scanStates (some (chars "a")) 1)) =
      some ⟨1, 0, [], false, none⟩ := by
  decide

/-! ## Step invariants of the scanner -/

/-- The summary actually observed by a caller (`getD` supplies the zero
summary, whose fields agree with what a fresh scan reports). -/
def summaryOf (s : Scanner) : ScanSummary :=
  s.scanSummary.getD freshSummary

/-- `processRecord` never touches the summary's error. -/
theorem processRecord_err (s : Scanner) (raw : List Char) (term : Option (List Char)) :
    (summaryOf (processRecord s raw term).2).err = (summaryOf s).err := by
  cases hσ : s.scanSummary <;>
    simp only [processRecord, appendAlt, withSummary, hσ, Option.map_none', Option.map_some',
      summaryOf, Option.getD_some, Option.getD_none] <;>
    (repeat' split) <;> rfl

/-- `processRecord` keeps the alteration count equal to the number of stored
alterations. -/
theorem processRecord_altOK (s : Scanner) (raw : List Char) (term : Option (List Char))
    (h : (summaryOf s).alterationCount = ((summaryOf s).alterations.length : Int)) :
    (summaryOf (processRecord s raw term).2).alterationCount =
      ((summaryOf (processRecord s raw term).2).alterations.length : Int) := by
  cases hσ : s.scanSummary <;>
    simp only [processRecord, appendAlt, withSummary, hσ, Option.map_none', Option.map_some',
      summaryOf, Option.getD_some, Option.getD_none] at h ⊢ <;>
    (repeat' split) <;>
    (try simp_all [freshSummary, List.length_append]) <;>
    (try omega)

/-- `processRecord` never changes the reader. -/
theorem processRecord_readerNil (s : Scanner) (raw : List Char) (term : Option (List Char)) :
    (processRecord s raw term).2.readerNil = s.readerNil := by
  simp only [processRecord, appendAlt, withSummary]
  (repeat' split) <;> rfl

/-- One advance never changes the reader. -/
theorem scanStep_readerNil (s : Scanner) : (scanStep s).2.readerNil = s.readerNil := by
  cases hσ : s.scanSummary <;>
    simp only [scanStep, hσ, withSummary] <;>
    (repeat' split) <;>
    simp [processRecord_readerNil, withSummary]

/-- The reader stays nil or non-nil over any number of advances. -/
theorem scanStates_readerNil (src : Option (List Char)) :
    ∀ k, (scanStates src k).readerNil = src.isNone := by
  intro k
  induction k with
  | zero => rfl
  | succ n ih =>
    show (scanStep (scanStates src n)).2.readerNil = src.isNone
    rw [scanStep_readerNil, ih]

/-- With a non-nil reader an advance never touches the summary's error. -/
theorem scanStep_err (s : Scanner) (h : s.readerNil = false) :
    (summaryOf (scanStep s).2).err = (summaryOf s).err := by
  cases hσ : s.scanSummary <;>
    simp only [scanStep, hσ, withSummary, h] <;>
    (repeat' split) <;>
    first
    | (refine (processRecord_err _ _ _).trans ?_; simp [summaryOf, hσ, freshSummary])
    | simp_all [summaryOf, withSummary, freshSummary]

/-- With a non-nil reader an advance keeps the alteration count equal to the
number of stored alterations. -/
theorem scanStep_altOK (s : Scanner) (h : s.readerNil = false)
    (hok : (summaryOf s).alterationCount = ((summaryOf s).alterations.length : Int)) :
    (summaryOf (scanStep s).2).alterationCount =
      ((summaryOf (scanStep s).2).alterations.length : Int) := by
  cases hσ : s.scanSummary with
  | none =>
    simp only [scanStep, hσ, withSummary, h]
    (repeat' split) <;>
      first
      | (refine (processRecord_altOK _ _ _ ?_).trans ?_ <;>
          first
          | rfl
          | simp [summaryOf, freshSummary])
      | simp_all [summaryOf, withSummary, freshSummary]
  | some σ =>
    simp only [summaryOf, hσ, Option.getD_some] at hok
    simp only [scanStep, hσ, withSummary, h]
    (repeat' split) <;>
      first
      | (refine (processRecord_altOK _ _ _ ?_).trans ?_ <;>
          first
          | exact hok
          | rfl
          | simp [summaryOf, hσ, freshSummary])
      | simp_all [summaryOf, withSummary, freshSummary]

/-- With a nil reader an advance returns false. -/
theorem scanStep_nil_false (s : Scanner) (h : s.readerNil = true) :
    (scanStep s).1 = false := by
  cases hσ : s.scanSummary <;> simp [scanStep, hσ, h]

/-- With a nil reader an advance sets the error summary, keeping whatever
alterations were accumulated (none, on any real run). -/
theorem scanStep_nil_summary (s : Scanner) (h : s.readerNil = true) :
    (scanStep s).2.scanSummary =
      some ⟨-1, -1, (summaryOf s).alterations, false, some ScanErr.readerIsNil⟩ := by
  cases hσ : s.scanSummary <;>
    simp [scanStep, hσ, h, withSummary, summaryOf, freshSummary]

/-- Claim C8: a nil-source scanner returns false on the first advance (and on
every advance), the summary then reads record count `-1`, alteration count
`-1`, `eof = false` and the `ReaderIsNil` error, and this error is the only
one the scanner ever surfaces: with a non-nil source the summary's error is
`none` at every observation point.  (The summary's error field is modelled
by the one error value the source ever assigns to it.) -/
theorem C8_nil_source_error :
    scanRets none 0 = false ∧
    (∀ k, scanRets none k = false) ∧
    (∀ k, (scanStates none (k + 1)).scanSummary =
        some ⟨-1, -1, [], false, some ScanErr.readerIsNil⟩) ∧
    (∀ (src : List Char) (k : Nat), (summaryOf (scanStates (some src) k)).err = none) := by
  have hnil : ∀ k, (scanStates none k).readerNil = true := by
    intro k
    rw [scanStates_readerNil]
    rfl
  refine ⟨by decide, ?_, ?_, ?_⟩
  · intro k
    exact scanStep_nil_false _ (hnil k)
  · intro k
    induction k with
    | zero => decide
    | succ n ih =>
      show (scanStep (scanStates none (n + 1))).2.scanSummary = _
      rw [scanStep_nil_summary _ (hnil (n + 1))]
      simp [summaryOf, ih]
  · intro src k
    induction k with
    | zero => rfl
    | succ n ih =>
      show (summaryOf (scanStep (scanStates (some src) n)).2).err = none
      rw [scanStep_err _ (by rw [scanStates_readerNil]; rfl)]
      exact ih

/-- Claim C9 counterexample: after the first advance of a nil-source scanner
the alteration count is `-1` while the alterations list is empty, so the two
disagree at that observation point. -/
theorem C9_counterexample :
    ¬ ((summaryOf (scanStates none 1)).alterationCount =
        ((summaryOf (scanStates none 1)).alterations.length : Int)) := by
  decide

/-- Claim C9 amended: for every input with a non-nil source, at every
observation point between advance calls the summary's alteration count equals
the number of entries in its alterations list (the nil-source summary instead
reports count `-1` beside an empty list). -/
theorem C9_amended (src : List Char) (k : Nat) :
    (summaryOf (scanStates (some src) k)).alterationCount =
      ((summaryOf (scanStates (some src) k)).alterations.length : Int) := by
  induction k with
  | zero => rfl
  | succ n ih =>
    show (summaryOf (scanStep (scanStates (some src) n)).2).alterationCount = _
    exact scanStep_altOK _ (by rw [scanStates_readerNil]; rfl) ih

/-! ## Claim C1: fixed record width -/

/-- Width reconciliation always returns a record of exactly the expected
width. -/
theorem reconcile_length (expected : Nat) (r : List (List Char)) :
    ((reconcile expected r).1).length = expected := by
  rw [reconcile]
  split
  · simp
    omega
  · split
    · simp
      omega
    · simp
      omega

/-- `processRecord` increments the emission counter, makes the current record
exactly as wide as the (updated) expected field count, and freezes the
expected field count after the first emission. -/
theorem processRecord_fields (s : Scanner) (raw : List Char) (term : Option (List Char)) :
    (processRecord s raw term).2.recordsScanned = s.recordsScanned + 1 ∧
    (processRecord s raw term).2.currentRecord.length =
      (processRecord s raw term).2.expectedFieldCount ∧
    (s.recordsScanned ≠ 0 →
      (processRecord s raw term).2.expectedFieldCount = s.expectedFieldCount) := by
  simp only [processRecord, appendAlt, withSummary]
  (repeat' split) <;>
    refine ⟨rfl, reconcile_length _ _, fun hne => ?_⟩ <;>
    first
    | rfl
    | omega

/-- Inversion of a successful advance: the emission counter grows by one, the
current record has exactly the expected width, and the expected width is
frozen after the first emission. -/
theorem scanStep_true_core (s s' : Scanner) (hstep : scanStep s = (true, s')) :
    s'.recordsScanned = s.recordsScanned + 1 ∧
    s'.currentRecord.length = s'.expectedFieldCount ∧
    (s.recordsScanned ≠ 0 → s'.expectedFieldCount = s.expectedFieldCount) := by
  cases hσ : s.scanSummary <;>
    simp only [scanStep, hσ, withSummary] at hstep <;>
    (repeat' split at hstep) <;>
    first
    | exact absurd (congrArg Prod.fst hstep) Bool.false_ne_true
    | (have h2 := congrArg Prod.snd hstep
       simp only at h2
       rw [← h2]
       exact ⟨(processRecord_fields _ _ _).1, (processRecord_fields _ _ _).2.1,
         fun hne => (processRecord_fields _ _ _).2.2 hne⟩)

/-- After at least one emission, every record a run emits has the frozen
expected width. -/
theorem runScan_lengths (E : Nat) :
    ∀ (fuel : Nat) (s : Scanner), s.expectedFieldCount = E → s.recordsScanned ≠ 0 →
      ∀ r ∈ runScan fuel s, r.length = E := by
  intro fuel
  induction fuel with
  | zero =>
    intro s _ _ r hr
    simp [runScan] at hr
  | succ n ih =>
    intro s hE hrs r hr
    rw [runScan] at hr
    cases hstep : scanStep s with
    | mk b s1 =>
      rw [hstep] at hr
      cases b
      · simp at hr
      · simp only at hr
        obtain ⟨h1, h2, h3⟩ := scanStep_true_core s s1 hstep
        rcases List.mem_cons.mp hr with hhd | htl
        · rw [hhd, h2, h3 hrs, hE]
        · exact ih s1 (by rw [h3 hrs, hE]) (by omega) r htl

/-- Claim C1: for every input and any number of advances, every emitted
record has exactly as many fields as the first emitted record — the first
emission fixes `expected_field_count`, later records are truncated or padded
(including the empty field list after a quote failure) to that width. -/
theorem C1_fixed_width (fuel : Nat) (src : Option (List Char)) (r : List (List Char))
    (hr : r ∈ emittedRecords fuel src) :
    r.length = ((emittedRecords fuel src).headD []).length := by
  cases fuel with
  | zero => simp [emittedRecords, runScan] at hr
  | succ n =>
    rw [emittedRecords, runScan] at hr ⊢
    cases hstep : scanStep (mkScanner src) with
    | mk b s1 =>
      rw [hstep] at hr
      cases b
      · simp at hr
      · simp only [List.headD_cons] at hr ⊢
        obtain ⟨h1, h2, h3⟩ := scanStep_true_core _ s1 hstep
        rcases List.mem_cons.mp hr with hhd | htl
        · rw [hhd]
        · rw [h2]
          exact runScan_lengths s1.expectedFieldCount n s1 rfl
            (by rw [h1]; omega) r htl

/-- Claim C1, witness: over the source `"a\nb,c"` the first record `["a"]`
fixes width one and the second emission is truncated to `["b"]`, a member of
the run of matching width. -/
theorem C1_fixed_width_witness :
    [chars "b"] ∈ emittedRecords 4 (some (chars "a\nb,c")) ∧
      ([chars "b"] : List (List Char)).length =
        ((emittedRecords 4 (some (chars "a\nb,c"))).headD []).length :=
  ⟨by decide, C1_fixed_width 4 (some (chars "a\nb,c")) [chars "b"] (by decide)⟩

/-! ## Shape lemmas for the splitter and the bufio driver -/

/-- `IndexNonQuoted` returns `-1` or a non-negative position. -/
theorem IndexNonQuoted_neg_or_nonneg (s pat : List Char) :
    IndexNonQuoted s pat = -1 ∨ 0 ≤ IndexNonQuoted s pat := by
  rw [IndexNonQuoted]
  split
  · exact Or.inl rfl
  · dsimp only
    split
    · exact Or.inr (Int.natCast_nonneg _)
    · split
      · exact Or.inl rfl
      · split
        · exact Or.inr (Int.natCast_nonneg _)
        · exact Or.inl rfl

/-- The index selected by `pick2` is one of its inputs or `-1`. -/
theorem pick2_snd (a b c d : Int) :
    (pick2 a b c d).2 = -1 ∨ (pick2 a b c d).2 = a ∨ (pick2 a b c d).2 = b := by
  rw [pick2]
  (repeat' split) <;> simp

/-- The index selected by `pick1` is one of its inputs or `-1`. -/
theorem pick1_snd (c d : Int) :
    (pick1 c d).2 = -1 ∨ (pick1 c d).2 = c ∨ (pick1 c d).2 = d := by
  rw [pick1]
  (repeat' split) <;> simp

/-- The two-byte selection over real occurrence indexes is `-1` or
non-negative. -/
theorem pick2_snd_range (data : List Char) :
    (pick2 (IndexNonQuoted data dosT) (IndexNonQuoted data invdosT)
        (IndexNonQuoted data ['\n']) (IndexNonQuoted data ['\r'])).2 = -1 ∨
    0 ≤ (pick2 (IndexNonQuoted data dosT) (IndexNonQuoted data invdosT)
        (IndexNonQuoted data ['\n']) (IndexNonQuoted data ['\r'])).2 := by
  rcases pick2_snd (IndexNonQuoted data dosT) (IndexNonQuoted data invdosT)
      (IndexNonQuoted data ['\n']) (IndexNonQuoted data ['\r']) with h | h | h <;>
    rw [h]
  · left; rfl
  · rcases IndexNonQuoted_neg_or_nonneg data dosT with h2 | h2
    · left; exact h2
    · right; exact h2
  · rcases IndexNonQuoted_neg_or_nonneg data invdosT with h2 | h2
    · left; exact h2
    · right; exact h2

/-- The single-byte selection over real occurrence indexes is `-1` or
non-negative. -/
theorem pick1_snd_range (data : List Char) :
    (pick1 (IndexNonQuoted data ['\n']) (IndexNonQuoted data ['\r'])).2 = -1 ∨
    0 ≤ (pick1 (IndexNonQuoted data ['\n']) (IndexNonQuoted data ['\r'])).2 := by
  rcases pick1_snd (IndexNonQuoted data ['\n']) (IndexNonQuoted data ['\r']) with h | h | h <;>
    rw [h]
  · left; rfl
  · rcases IndexNonQuoted_neg_or_nonneg data ['\n'] with h2 | h2
    · left; exact h2
    · right; exact h2
  · rcases IndexNonQuoted_neg_or_nonneg data ['\r'] with h2 | h2
    · left; exact h2
    · right; exact h2

/-- Every `Split` call is a need-more, an emission consuming at least one
byte, or the final token. -/
theorem splitGo_shape (d : List Char) (b : Bool) :
    splitGo d b = ⟨0, none, false, none⟩ ∨
    (∃ a trm, splitGo d b = ⟨a, some (d.take a), false, trm⟩ ∧ 1 ≤ a) ∨
    splitGo d b = ⟨0, some d, true, some []⟩ := by
  have h2 := pick2_snd_range d
  have h1 := pick1_snd_range d
  simp only [splitGo]
  split
  · split
    · left; rfl
    · right; left
      refine ⟨_, _, rfl, ?_⟩
      rename_i hne _
      omega
  · split
    · split
      · left; rfl
      · right; left
        refine ⟨_, _, rfl, ?_⟩
        rename_i hne _
        omega
    · split
      · left; rfl
      · right; right; rfl

/-- The final-token call on an empty window at end of file. -/
theorem splitGo_nil_true : splitGo [] true = ⟨0, some [], true, some []⟩ := by
  decide

/-- The need-more call on an empty window before end of file. -/
theorem splitGo_nil_false : splitGo [] false = ⟨0, none, false, none⟩ := by
  decide

/-- Well-formedness of the driver state: once the final token has been
delivered the recorded terminator is the empty slice. -/
def WFb (b : BufState) : Prop :=
  b.done = true → b.term = some []

/-- A state from which every further inner scan fails: the final token has
been delivered, or the scanner has shut down at end of file. -/
def DeadBuf (b : BufState) : Prop :=
  b.done = true ∨ (b.eofSeen = true ∧ b.rem = [])

/-- Remaining input budget of the driver. -/
def bufBudget (b : BufState) : Nat :=
  if b.done then 0 else b.rem.length

/-- An inner scan on a finished driver fails and changes nothing. -/
theorem bufScan_done (b : BufState) (h : b.done = true) : bufScan b = (false, b) := by
  rw [bufScan, if_pos h]

/-- One split call is a need-more (token and terminator cleared), an
emission (at least one byte consumed from the window), or the final token
(whole window, `done` set, empty terminator). -/
theorem bufSplitOnce_cases (st : BufState) :
    (bufSplitOnce st = ({st with token := none, term := none}, false) ∧
      splitGo st.rem st.eofSeen = ⟨0, none, false, none⟩) ∨
    (∃ a trm, 1 ≤ a ∧
      bufSplitOnce st =
        ({st with rem := st.rem.drop a, token := some (st.rem.take a), term := trm}, true) ∧
      splitGo st.rem st.eofSeen = ⟨a, some (st.rem.take a), false, trm⟩) ∨
    bufSplitOnce st = ({st with done := true, token := some st.rem, term := some []}, true) := by
  rcases splitGo_shape st.rem st.eofSeen with h | ⟨a, trm, h, ha⟩ | h
  · left
    rw [bufSplitOnce, h]
    exact ⟨rfl, rfl⟩
  · right; left
    refine ⟨a, trm, ha, ?_, h⟩
    rw [bufSplitOnce, h]
    rfl
  · right; right
    rw [bufSplitOnce, h]
    rfl

/-- A split call on an empty window emits only the final token. -/
theorem splitGo_emission_ne_nil (d : List Char) (b : Bool) (a : Nat) (trm : Option (List Char))
    (h : splitGo d b = ⟨a, some (d.take a), false, trm⟩) : d ≠ [] := by
  intro hd
  subst hd
  cases b
  · rw [splitGo_nil_false] at h
    exact Option.noConfusion (congrArg SplitOut.token h)
  · rw [splitGo_nil_true] at h
    exact Bool.noConfusion (congrArg SplitOut.final h)

/-- Complete enumeration of one inner scan: a finished driver fails
unchanged; otherwise the scan either delivers a token (an emission consuming
part of a non-empty window without touching `done`, or the final token with
`done` set and the empty terminator) or shuts down. -/
theorem bufScan_cases (b : BufState) :
    (b.done = true ∧ bufScan b = (false, b)) ∨
    (b.done = false ∧ ∃ b1, bufScan b = (true, b1) ∧
      ((∃ a, 1 ≤ a ∧ b.rem ≠ [] ∧ b1.done = false ∧ b1.rem = b.rem.drop a ∧
          b1.token = some (b.rem.take a)) ∨
       (b1.done = true ∧ b1.rem = b.rem ∧ b1.token = some b.rem ∧ b1.term = some []))) ∨
    (b.done = false ∧ ∃ b1, bufScan b = (false, b1) ∧ b1.done = false ∧ b1.eofSeen = true ∧
      b1.rem = [] ∧ b1.token = none ∧ b1.term = none) := by
  by_cases hdone : b.done = true
  · exact Or.inl ⟨hdone, bufScan_done b hdone⟩
  · have hdone2 : b.done = false := by
      revert hdone
      cases b.done <;> simp
    by_cases hcond : b.rem ≠ [] ∨ b.eofSeen = true
    · rcases bufSplitOnce_cases b with ⟨hc, hs⟩ | ⟨a, trm, ha, hc, hs⟩ | hc
      · by_cases heof : b.eofSeen = true
        · have key : bufScan b = (false, ⟨[], b.eofSeen, b.done, none, none⟩) := by
            rw [bufScan, if_neg hdone, if_pos hcond, hc]
            dsimp only
            rw [if_pos heof]
          exact Or.inr (Or.inr ⟨hdone2, _, key, hdone2, heof, rfl, rfl, rfl⟩)
        · rcases bufSplitOnce_cases ⟨b.rem, true, b.done, none, none⟩ with
              ⟨hc2, hs2⟩ | ⟨a2, trm2, ha2, hc2, hs2⟩ | hc2
          · have key : bufScan b = (false, ⟨[], true, b.done, none, none⟩) := by
              rw [bufScan, if_neg hdone, if_pos hcond, hc]
              dsimp only
              rw [if_neg heof]
              rw [hc2]
            exact Or.inr (Or.inr ⟨hdone2, _, key, hdone2, rfl, rfl, rfl, rfl⟩)
          · have key : bufScan b =
                (true, ⟨b.rem.drop a2, true, b.done, some (b.rem.take a2), trm2⟩) := by
              rw [bufScan, if_neg hdone, if_pos hcond, hc]
              dsimp only
              rw [if_neg heof]
              rw [hc2]
            refine Or.inr (Or.inl ⟨hdone2, _, key, Or.inl ⟨a2, ha2, ?_, hdone2, rfl, rfl⟩⟩)
            exact splitGo_emission_ne_nil _ _ _ _ hs2
          · have key : bufScan b = (true, ⟨b.rem, true, true, some b.rem, some []⟩) := by
              rw [bufScan, if_neg hdone, if_pos hcond, hc]
              dsimp only
              rw [if_neg heof]
              rw [hc2]
            exact Or.inr (Or.inl ⟨hdone2, _, key, Or.inr ⟨rfl, rfl, rfl, rfl⟩⟩)
      · have key : bufScan b =
            (true, ⟨b.rem.drop a, b.eofSeen, b.done, some (b.rem.take a), trm⟩) := by
          rw [bufScan, if_pos hcond, if_neg hdone, hc]
        refine Or.inr (Or.inl ⟨hdone2, _, key, Or.inl ⟨a, ha, ?_, hdone2, rfl, rfl⟩⟩)
        exact splitGo_emission_ne_nil _ _ _ _ hs
      · have key : bufScan b =
            (true, ⟨b.rem, b.eofSeen, true, some b.rem, some []⟩) := by
          rw [bufScan, if_pos hcond, if_neg hdone, hc]
        exact Or.inr (Or.inl ⟨hdone2, _, key, Or.inr ⟨rfl, rfl, rfl, rfl⟩⟩)
    · rcases bufSplitOnce_cases ⟨b.rem, true, b.done, b.token, b.term⟩ with
          ⟨hc2, hs2⟩ | ⟨a2, trm2, ha2, hc2, hs2⟩ | hc2
      · have key : bufScan b = (false, ⟨[], true, b.done, none, none⟩) := by
          rw [bufScan, if_neg hdone, if_neg hcond]
          dsimp only
          rw [hc2]
        exact Or.inr (Or.inr ⟨hdone2, _, key, hdone2, rfl, rfl, rfl, rfl⟩)
      · have key : bufScan b =
            (true, ⟨b.rem.drop a2, true, b.done, some (b.rem.take a2), trm2⟩) := by
          rw [bufScan, if_neg hdone, if_neg hcond]
          dsimp only
          rw [hc2]
        refine Or.inr (Or.inl ⟨hdone2, _, key, Or.inl ⟨a2, ha2, ?_, hdone2, rfl, rfl⟩⟩)
        exact splitGo_emission_ne_nil _ _ _ _ hs2
      · have key : bufScan b = (true, ⟨b.rem, true, true, some b.rem, some []⟩) := by
          rw [bufScan, if_neg hdone, if_neg hcond]
          dsimp only
          rw [hc2]
        exact Or.inr (Or.inl ⟨hdone2, _, key, Or.inr ⟨rfl, rfl, rfl, rfl⟩⟩)

/-- Inversion of a failing inner scan: the driver was already finished and is
unchanged, or it shuts down with the window discarded at end of file. -/
theorem bufScan_false (b b' : BufState) (h : bufScan b = (false, b')) :
    (b.done = true ∧ b' = b) ∨
    (b'.done = false ∧ b'.eofSeen = true ∧ b'.rem = [] ∧ b'.token = none ∧ b'.term = none) := by
  rcases bufScan_cases b with ⟨hd, hc⟩ | ⟨hd, b1, hc, hrest⟩ | ⟨hd, b1, hc, h1, h2, h3, h4, h5⟩
  · rw [hc] at h
    injection h with _ h2
    exact Or.inl ⟨hd, h2.symm⟩
  · rw [hc] at h
    injection h with h1 _
    exact Bool.noConfusion h1
  · rw [hc] at h
    injection h with _ hb
    rw [← hb]
    exact Or.inr ⟨h1, h2, h3, h4, h5⟩

/-- Inversion of a successful inner scan. -/
theorem bufScan_true (b b' : BufState) (h : bufScan b = (true, b')) :
    b.done = false ∧
    ((∃ a, 1 ≤ a ∧ b.rem ≠ [] ∧ b'.done = false ∧ b'.rem = b.rem.drop a ∧
        b'.token = some (b.rem.take a)) ∨
     (b'.done = true ∧ b'.rem = b.rem ∧ b'.token = some b.rem ∧ b'.term = some [])) := by
  rcases bufScan_cases b with ⟨hd, hc⟩ | ⟨hd, b1, hc, hrest⟩ | ⟨hd, b1, hc, h1, h2, h3, h4, h5⟩
  · rw [hc] at h
    injection h with h1 _
    exact Bool.noConfusion h1
  · rw [hc] at h
    injection h with _ hb
    rw [← hb]
    exact ⟨hd, hrest⟩
  · rw [hc] at h
    injection h with h1 _
    exact Bool.noConfusion h1

/-- An inner scan of a shut-down driver delivers the empty final token. -/
theorem bufScan_shutdown (b : BufState) (hrem : b.rem = []) (heof : b.eofSeen = true)
    (hdone : b.done = false) :
    bufScan b = (true, {b with done := true, token := some [], term := some []}) := by
  rw [bufScan, if_neg (by simp [hdone]), if_pos (Or.inr heof), bufSplitOnce, hrem, heof,
    splitGo_nil_true]
  rw [← hrem]
  rfl

/-! ## Claim C10: end of stream is absorbing -/

/-- The summary allocation prefix of `Scanner.Scan` (lines 168-171): ensure a
summary is present before the body runs. -/
def allocS (s : Scanner) : Scanner :=
  match s.scanSummary with
  | none => {s with scanSummary := some freshSummary}
  | some _ => s

/-- Allocation does not change the reader. -/
theorem allocS_readerNil (s : Scanner) : (allocS s).readerNil = s.readerNil := by
  cases hσ : s.scanSummary <;> simp [allocS, hσ]

/-- Allocation does not change the inner driver state. -/
theorem allocS_buf (s : Scanner) : (allocS s).buf = s.buf := by
  cases hσ : s.scanSummary <;> simp [allocS, hσ]

/-- Allocation does not change the unclaimed-byte count. -/
theorem allocS_unclaimed (s : Scanner) : (allocS s).bytesUnclaimed = s.bytesUnclaimed := by
  cases hσ : s.scanSummary <;> simp [allocS, hσ]

/-- The record count, alteration count and alteration list of the summary (the
fresh summary when none is allocated). -/
def countsTriple (s : Scanner) : Int × Int × List Alteration :=
  ((summaryOf s).recordCount, (summaryOf s).alterationCount, (summaryOf s).alterations)

/-- `countsTriple` only looks at the summary. -/
theorem countsTriple_congr (a b : Scanner) (h : a.scanSummary = b.scanSummary) :
    countsTriple a = countsTriple b := by
  simp [countsTriple, summaryOf, h]

/-- Allocating the fresh summary does not change the observed counts. -/
theorem allocS_counts (s : Scanner) : countsTriple (allocS s) = countsTriple s := by
  cases hσ : s.scanSummary <;>
    simp [allocS, hσ, countsTriple, summaryOf, freshSummary]

/-- Setting the summary's end-of-file flag does not change the observed
counts. -/
theorem countsTriple_eofSet (z : Scanner) :
    countsTriple (withSummary z (fun m => {m with eof := true})) = countsTriple z := by
  cases hz : z.scanSummary <;>
    simp [countsTriple, withSummary, summaryOf, hz]

/-- One advance, written with the summary allocation factored out and the
inner-scan and skip-loop results abstracted. -/
theorem scanStep_eq (s : Scanner) (r0 : Bool × BufState) (lo : LoopOut)
    (hr0 : bufScan (allocS s).buf = r0)
    (hlo : skipLoop (r0.2.rem.length + 2) r0.1 r0.2 (allocS s).bytesUnclaimed = lo) :
    scanStep s =
      if (allocS s).readerNil then
        (false, withSummary (allocS s) (fun m =>
          {m with err := some .readerIsNil, recordCount := -1, alterationCount := -1,
                  eof := false}))
      else if ¬ r0.1 then
        (false, withSummary {allocS s with buf := r0.2} (fun m => {m with eof := true}))
      else if lo.raw = [] ∧ (lo.term.getD []).length = 0 then
        (false, {allocS s with buf := lo.buf, bytesUnclaimed := lo.unclaimed})
      else
        processRecord {allocS s with buf := lo.buf, bytesUnclaimed := lo.unclaimed}
          lo.raw lo.term := by
  subst hr0
  subst hlo
  cases hσ : s.scanSummary <;> simp only [scanStep, allocS, hσ]

/-- `processRecord` always reports success. -/
theorem processRecord_fst (s : Scanner) (raw : List Char) (term : Option (List Char)) :
    (processRecord s raw term).1 = true :=
  rfl

/-- `processRecord` touches neither the inner driver state nor the
unclaimed-byte count. -/
theorem processRecord_buf (s : Scanner) (raw : List Char) (term : Option (List Char)) :
    (processRecord s raw term).2.buf = s.buf ∧
    (processRecord s raw term).2.bytesUnclaimed = s.bytesUnclaimed := by
  simp only [processRecord, appendAlt, withSummary]
  (repeat' split) <;> exact ⟨rfl, rfl⟩

/-- Fuel sufficient for the skip loop to reach its exit condition. -/
def skipFuel (more : Bool) (buf : BufState) : Nat :=
  if more then (if buf.done then 1 else buf.rem.length + 2) else 0

/-- The fuel passed to the skip loop by `Scanner.Scan` is always sufficient. -/
theorem skipFuel_le (more : Bool) (buf : BufState) :
    skipFuel more buf ≤ buf.rem.length + 2 := by
  rw [skipFuel]
  (repeat' split) <;> omega

/-- With sufficient fuel the skip loop exits by its condition: no more tokens,
or a raw record different from the terminator. -/
theorem skipLoop_exit : ∀ (fuel : Nat) (more : Bool) (buf : BufState) (u : Nat),
    skipFuel more buf ≤ fuel →
    (skipLoop fuel more buf u).more = false ∨
      ¬ ((skipLoop fuel more buf u).raw = (skipLoop fuel more buf u).term.getD []) := by
  intro fuel
  induction fuel with
  | zero =>
    intro more buf u hf
    cases more
    · exact Or.inl rfl
    · exfalso
      rw [skipFuel] at hf
      simp only [if_true] at hf
      split at hf <;> omega
  | succ f ih =>
    intro more buf u hf
    simp only [skipLoop]
    by_cases hc : (buf.token.getD [] = buf.term.getD [] ∧ more = true)
    · rw [if_pos hc]
      refine ih _ _ _ ?_
      rcases hc with ⟨hraw, hmore⟩
      subst hmore
      by_cases hdone : buf.done = true
      · rw [bufScan_done buf hdone]
        simp [skipFuel]
      · have hf2 : buf.rem.length + 2 ≤ f + 1 := by
          rw [skipFuel, if_pos rfl, if_neg hdone] at hf
          exact hf
        rcases bufScan_cases buf with ⟨hd, _⟩ | ⟨hd, b1, hcs, hem | hfin⟩ |
            ⟨hd, b1, hcs, hd1, he1, hr1, ht1, htm1⟩
        · exact absurd hd hdone
        · obtain ⟨a, ha, hne, hd1, hrem1, _⟩ := hem
          rw [hcs]
          have hlen : b1.rem.length = buf.rem.length - a := by
            rw [hrem1, List.length_drop]
          have hpos : 1 ≤ buf.rem.length := List.length_pos.mpr hne
          dsimp only
          rw [skipFuel, if_pos rfl, if_neg (show ¬ (b1.done = true) by simp [hd1])]
          omega
        · obtain ⟨hd1, _, _, _⟩ := hfin
          rw [hcs]
          simp only [skipFuel, if_true, hd1, if_true]
          omega
        · rw [hcs]
          simp [skipFuel]
    · rw [if_neg hc]
      by_cases hm : more = true
      · right
        intro hraw
        exact hc ⟨hraw, hm⟩
      · left
        revert hm
        cases more <;> simp

/-- The skip loop can only hand out a dead driver state when its last inner
scan failed or the state it started from was already dead. -/
theorem skipLoop_dead : ∀ (fuel : Nat) (more : Bool) (buf : BufState) (u : Nat),
    (more = false → DeadBuf buf) →
    (skipLoop fuel more buf u).more = false → DeadBuf (skipLoop fuel more buf u).buf := by
  intro fuel
  induction fuel with
  | zero =>
    intro more buf u hpre hout
    exact hpre hout
  | succ f ih =>
    intro more buf u hpre hout
    simp only [skipLoop] at hout ⊢
    by_cases hc : (buf.token.getD [] = buf.term.getD [] ∧ more = true)
    · rw [if_pos hc] at hout ⊢
      refine ih _ _ _ ?_ hout
      intro hfail
      cases hr : bufScan buf with
      | mk rb rbuf =>
        rw [hr] at hfail
        subst hfail
        rcases bufScan_false buf rbuf hr with ⟨hd, hb⟩ | ⟨_, he, hrm, _, _⟩
        · rw [hb]
          exact Or.inl hd
        · exact Or.inr ⟨he, hrm⟩
    · rw [if_neg hc] at hout ⊢
      exact hpre hout

/-- The skip loop does nothing once the inner scanner has no more tokens. -/
theorem skipLoop_nomore (f : Nat) (b : BufState) (u : Nat) :
    skipLoop f false b u = ⟨b.token.getD [], b.term, false, b, u⟩ := by
  cases f <;> simp [skipLoop]

/-- On a finished driver whose token equals the terminator, the skip loop
consumes one (empty) token and stops. -/
theorem skipLoop_done_eq (fuel : Nat) (hf : fuel ≠ 0) (b : BufState) (u : Nat)
    (hdone : b.done = true) (htok : b.token.getD [] = b.term.getD []) :
    skipLoop fuel true b u =
      ⟨b.token.getD [], b.term, false, b, u + (b.term.getD []).length⟩ := by
  cases fuel with
  | zero => exact absurd rfl hf
  | succ f =>
    simp only [skipLoop]
    rw [if_pos (show b.token.getD [] = b.term.getD [] ∧ True from ⟨htok, trivial⟩),
      bufScan_done b hdone]
    exact skipLoop_nomore f b _

/-- A failing advance is the pair of `false` and the updated scanner. -/
theorem scanStep_fst_eq (s : Scanner) (h : (scanStep s).1 = false) :
    scanStep s = (false, (scanStep s).2) := by
  cases hs : scanStep s with
  | mk b s2 =>
    rw [hs] at h
    cases b
    · rfl
    · exact Bool.noConfusion h

/-- Inversion of a failing advance on a non-nil reader: the reader stays
non-nil, the driver is left dead, and the summary's counts and alterations
are untouched. -/
theorem scanStep_false_dead (s s' : Scanner) (hrd : s.readerNil = false)
    (h : scanStep s = (false, s')) :
    s'.readerNil = false ∧ DeadBuf s'.buf ∧ countsTriple s' = countsTriple s := by
  cases hr : bufScan (allocS s).buf with
  | mk rb rbuf =>
  rw [scanStep_eq s (rb, rbuf)
    (skipLoop (rbuf.rem.length + 2) rb rbuf (allocS s).bytesUnclaimed) hr rfl] at h
  dsimp only at h
  rw [if_neg (show ¬ ((allocS s).readerNil = true) by simp [allocS_readerNil, hrd])] at h
  cases rb
  · rw [if_pos (show ¬ (false = true) from by decide)] at h
    injection h with h1 h2
    refine ⟨?_, ?_, ?_⟩
    · rw [← h2]
      simp [withSummary, allocS_readerNil, hrd]
    · have hbuf : s'.buf = rbuf := by rw [← h2]; rfl
      rw [hbuf]
      rcases bufScan_false _ _ hr with ⟨hd, hb⟩ | ⟨_, he, hrm, _, _⟩
      · rw [hb, allocS_buf]
        rw [allocS_buf] at hd
        exact Or.inl hd
      · exact Or.inr ⟨he, hrm⟩
    · rw [← h2]
      exact (countsTriple_eofSet _).trans
        ((countsTriple_congr _ _ rfl).trans (allocS_counts s))
  · rw [if_neg (show ¬ ¬ (true = true) from by decide)] at h
    split at h
    next hB =>
      injection h with h1 h2
      have hmore :
          (skipLoop (rbuf.rem.length + 2) true rbuf (allocS s).bytesUnclaimed).more = false := by
        rcases skipLoop_exit (rbuf.rem.length + 2) true rbuf (allocS s).bytesUnclaimed
            (skipFuel_le _ _) with hm | hne
        · exact hm
        · exact absurd (hB.1.trans (List.length_eq_zero.mp hB.2).symm) hne
      refine ⟨?_, ?_, ?_⟩
      · rw [← h2]
        simp [allocS_readerNil, hrd]
      · have hbuf : s'.buf =
            (skipLoop (rbuf.rem.length + 2) true rbuf (allocS s).bytesUnclaimed).buf := by
          rw [← h2]
        rw [hbuf]
        exact skipLoop_dead _ _ _ _ (fun hx => Bool.noConfusion hx) hmore
      · rw [← h2]
        exact (countsTriple_congr _ _ rfl).trans (allocS_counts s)
    next hB =>
      have h1 := congrArg Prod.fst h
      rw [processRecord_fst] at h1
      exact Bool.noConfusion h1

/-- Advancing from a dead driver fails. -/
theorem scanStep_dead_false (s : Scanner) (hrd : s.readerNil = false) (hd : DeadBuf s.buf) :
    (scanStep s).1 = false := by
  have hA : s.buf.done = true → (scanStep s).1 = false := by
    intro hdone
    have hr : bufScan (allocS s).buf = (false, (allocS s).buf) := by
      rw [allocS_buf]
      exact bufScan_done s.buf hdone
    rw [scanStep_eq s _ _ hr rfl]
    rw [if_neg (show ¬ ((allocS s).readerNil = true) by simp [allocS_readerNil, hrd])]
    rw [if_pos (show ¬ (((false, (allocS s).buf) : Bool × BufState).1 = true) from by simp)]
  rcases hd with hdone | ⟨heof, hrem⟩
  · exact hA hdone
  · by_cases hdn : s.buf.done = true
    · exact hA hdn
    · have hdn2 : s.buf.done = false := by
        revert hdn
        cases s.buf.done <;> simp
      have hr : bufScan (allocS s).buf =
          (true, {s.buf with done := true, token := some [], term := some []}) := by
        rw [allocS_buf]
        exact bufScan_shutdown s.buf hrem heof hdn2
      have hlo : skipLoop
          ((({s.buf with done := true, token := some [], term := some []} : BufState)).rem.length
              + 2)
          true {s.buf with done := true, token := some [], term := some []}
          (allocS s).bytesUnclaimed =
          ⟨[], some [], false, {s.buf with done := true, token := some [], term := some []},
            (allocS s).bytesUnclaimed + 0⟩ :=
        skipLoop_done_eq _ (by omega) _ _ rfl rfl
      rw [scanStep_eq s _ _ hr hlo]
      rw [if_neg (show ¬ ((allocS s).readerNil = true) by simp [allocS_readerNil, hrd])]
      dsimp only
      rw [if_neg (show ¬ ¬ (true = true) from by decide)]
      rw [if_pos ⟨rfl, rfl⟩]

/-- Claim C10: for every non-nil source, once an advance has returned false
every later advance also returns false, and the summary's record count,
alteration count and alteration list never change again: the end-of-stream
state is absorbing. -/
theorem C10_eof_absorbing (src : List Char) (k m : Nat)
    (h : scanRets (some src) k = false) :
    scanRets (some src) (k + m) = false ∧
    countsTriple (scanStates (some src) (k + m + 1)) =
      countsTriple (scanStates (some src) (k + 1)) := by
  have hrd : ∀ j, (scanStates (some src) j).readerNil = false := by
    intro j
    rw [scanStates_readerNil]
    rfl
  have hbase := scanStep_false_dead (scanStates (some src) k) (scanStates (some src) (k + 1))
    (hrd k) (scanStep_fst_eq _ h)
  have main : ∀ j, DeadBuf (scanStates (some src) (k + 1 + j)).buf ∧
      countsTriple (scanStates (some src) (k + 1 + j)) =
        countsTriple (scanStates (some src) (k + 1)) := by
    intro j
    induction j with
    | zero => exact ⟨hbase.2.1, rfl⟩
    | succ n ih =>
      have hdf := scanStep_dead_false (scanStates (some src) (k + 1 + n)) (hrd _) ih.1
      have h3 := scanStep_false_dead (scanStates (some src) (k + 1 + n))
        (scanStates (some src) (k + 1 + n + 1)) (hrd _) (scanStep_fst_eq _ hdf)
      exact ⟨h3.2.1, h3.2.2.trans ih.2⟩
  constructor
  · cases m with
    | zero => simpa using h
    | succ n =>
      have hdf := scanStep_dead_false (scanStates (some src) (k + 1 + n)) (hrd _) (main n).1
      have he : k + (n + 1) = k + 1 + n := by omega
      rw [scanRets, he]
      exact hdf
  · have hm := (main m).2
    have he : k + 1 + m = k + m + 1 := by omega
    rw [he] at hm
    exact hm

/-- Claim C10, witness: over the empty source the second advance returns
false; the theorem then gives that the third advance is also false and the
counts after it match the counts after the second. -/
theorem C10_eof_absorbing_witness :
    scanRets (some []) 1 = false ∧
    (scanRets (some []) (1 + 1) = false ∧
      countsTriple (scanStates (some []) (1 + 1 + 1)) =
        countsTriple (scanStates (some []) (1 + 1))) :=
  ⟨by decide, C10_eof_absorbing [] 1 1 (by decide)⟩


/-! ## Claim C6: byte accounting for Partition -/

/-- Driver-state invariant: an empty token implies an empty terminator (so an
empty raw record never carries a non-empty terminator out of the skip loop). -/
def TokOK (b : BufState) : Prop :=
  b.token.getD [] = [] → b.term.getD [] = []

/-- A non-trivial prefix of a non-empty list is non-empty. -/
theorem take_ne_nil (a : Nat) (l : List Char) (ha : 1 ≤ a) (hl : l ≠ []) :
    l.take a ≠ [] := by
  cases l with
  | nil => exact absurd rfl hl
  | cons x xs =>
    cases a with
    | zero => omega
    | succ n => simp

/-- One inner scan preserves terminator well-formedness and the
empty-token/empty-terminator invariant. -/
theorem bufScan_WFb_TokOK (b : BufState) (hW : WFb b) :
    WFb (bufScan b).2 ∧ TokOK (bufScan b).2 := by
  rcases bufScan_cases b with ⟨hd, hc⟩ | ⟨hd, b1, hc, hem | hfin⟩ |
      ⟨hd, b1, hc, hd1, he1, hr1, ht1, htm1⟩ <;> rw [hc]
  · exact ⟨hW, fun _ => by simp [hW hd]⟩
  · obtain ⟨a, ha, hne, hd1, hrem1, htok1⟩ := hem
    refine ⟨fun hx => absurd hx (by simp [hd1]), fun htk => ?_⟩
    rw [htok1, Option.getD_some] at htk
    exact absurd htk (take_ne_nil a b.rem ha hne)
  · obtain ⟨hd1, hrem1, htok1, htm1⟩ := hfin
    exact ⟨fun _ => htm1, fun _ => by simp [htm1]⟩
  · exact ⟨fun hx => absurd hx (by simp [hd1]), fun _ => by simp [htm1]⟩

/-- A failing inner scan cannot increase the remaining input budget. -/
theorem bufScan_false_budget (b b1 : BufState) (h : bufScan b = (false, b1)) :
    bufBudget b1 ≤ bufBudget b := by
  rcases bufScan_false b b1 h with ⟨hd, hb⟩ | ⟨hd1, he1, hr1, _, _⟩
  · rw [hb]
  · rw [bufBudget, if_neg (by simp [hd1]), hr1]
    simp

/-- A delivered token together with the remaining budget never exceeds the
budget before the scan. -/
theorem bufScan_true_budget (b b1 : BufState) (h : bufScan b = (true, b1)) :
    (b1.token.getD []).length + bufBudget b1 ≤ bufBudget b := by
  obtain ⟨hd, hem | hfin⟩ := bufScan_true b b1 h
  · obtain ⟨a, ha, hne, hd1, hrem1, htok1⟩ := hem
    have hbb1 : bufBudget b1 = b.rem.length - a := by
      rw [bufBudget, if_neg (by simp [hd1]), hrem1, List.length_drop]
    have hbb : bufBudget b = b.rem.length := by
      rw [bufBudget, if_neg (by simp [hd])]
    have hlt : (b.rem.take a).length = min a b.rem.length := by simp
    simp only [htok1, Option.getD_some, hbb1, hbb]
    omega
  · obtain ⟨hd1, hrem1, htok1, htm1⟩ := hfin
    have hbb1 : bufBudget b1 = 0 := by rw [bufBudget, if_pos hd1]
    have hbb : bufBudget b = b.rem.length := by
      rw [bufBudget, if_neg (by simp [hd])]
    simp only [htok1, Option.getD_some, hbb1, hbb, hrem1]
    omega

/-- One skip-loop iteration step: scanning away a token that equals the
terminator cannot increase token-plus-terminator-plus-budget. -/
theorem bufScan_budget_step (b : BufState) (hW : WFb b)
    (hraw : b.token.getD [] = b.term.getD []) :
    ((bufScan b).2.token.getD []).length + (b.term.getD []).length +
        bufBudget (bufScan b).2 ≤
      (b.token.getD []).length + bufBudget b := by
  cases hr : bufScan b with
  | mk rb b1 =>
    dsimp only
    cases rb
    · have hb := bufScan_false_budget b b1 hr
      rcases bufScan_false b b1 hr with ⟨hd, hbb⟩ | ⟨hd1, he1, hr1, ht1, htm1⟩
      · subst hbb
        have ht := hW hd
        simp only [ht, Option.getD_some, List.length_nil]
        omega
      · rw [ht1]
        simp only [Option.getD_none, List.length_nil]
        rw [← hraw]
        omega
    · have hb := bufScan_true_budget b b1 hr
      rw [← hraw]
      omega

/-- Main skip-loop invariant: the exit values mirror the exit driver state,
well-formedness and the empty-token invariant are preserved, and the exit
raw record, unclaimed bytes and remaining budget stay within the entry
token-plus-unclaimed-plus-budget. -/
theorem skipLoop_main : ∀ (fuel : Nat) (more : Bool) (buf : BufState) (u : Nat) (out : LoopOut),
    WFb buf → TokOK buf → skipLoop fuel more buf u = out →
    out.raw = out.buf.token.getD [] ∧ out.term = out.buf.term ∧
    WFb out.buf ∧ TokOK out.buf ∧
    out.raw.length + out.unclaimed + bufBudget out.buf ≤
      (buf.token.getD []).length + u + bufBudget buf := by
  intro fuel
  induction fuel with
  | zero =>
    intro more buf u out hW hT hout
    rw [skipLoop] at hout
    subst hout
    exact ⟨rfl, rfl, hW, hT, by dsimp only; omega⟩
  | succ f ih =>
    intro more buf u out hW hT hout
    simp only [skipLoop] at hout
    by_cases hc : (buf.token.getD [] = buf.term.getD [] ∧ more = true)
    · rw [if_pos hc] at hout
      have hpres := bufScan_WFb_TokOK buf hW
      have hstep := bufScan_budget_step buf hW hc.1
      have H := ih (bufScan buf).1 (bufScan buf).2 (u + (buf.term.getD []).length) out
        hpres.1 hpres.2 hout
      refine ⟨H.1, H.2.1, H.2.2.1, H.2.2.2.1, ?_⟩
      have hb := H.2.2.2.2
      omega
    · rw [if_neg hc] at hout
      subst hout
      exact ⟨rfl, rfl, hW, hT, by dsimp only; omega⟩


/-- Facts about a successful advance: the emitted raw text (still visible as
the driver's token) is non-empty, the driver stays well-formed, and the text
plus the new unclaimed bytes plus the remaining budget fit in the old
unclaimed bytes plus the old budget. -/
theorem scanStep_true_facts (s s' : Scanner) (hW : WFb s.buf) (h : scanStep s = (true, s')) :
    s'.buf.token.getD [] ≠ [] ∧ WFb s'.buf ∧
    (s'.buf.token.getD []).length + s'.bytesUnclaimed + bufBudget s'.buf ≤
      s.bytesUnclaimed + bufBudget s.buf := by
  cases hr : bufScan (allocS s).buf with
  | mk rb rbuf =>
  rw [scanStep_eq s (rb, rbuf)
    (skipLoop (rbuf.rem.length + 2) rb rbuf (allocS s).bytesUnclaimed) hr rfl] at h
  dsimp only at h
  by_cases hN : (allocS s).readerNil = true
  · rw [if_pos hN] at h
    exact Bool.noConfusion (congrArg Prod.fst h)
  · rw [if_neg hN] at h
    cases rb
    · rw [if_pos (show ¬ (false = true) from by decide)] at h
      exact Bool.noConfusion (congrArg Prod.fst h)
    · rw [if_neg (show ¬ ¬ (true = true) from by decide)] at h
      have hr2 : bufScan s.buf = (true, rbuf) := by
        rw [← allocS_buf s]
        exact hr
      have hWa : WFb (allocS s).buf := by
        rw [allocS_buf]
        exact hW
      have hpres := bufScan_WFb_TokOK s.buf hW
      rw [hr2] at hpres
      dsimp only at hpres
      have htb := bufScan_true_budget s.buf rbuf hr2
      have HL := skipLoop_main (rbuf.rem.length + 2) true rbuf ((allocS s).bytesUnclaimed)
        (skipLoop (rbuf.rem.length + 2) true rbuf ((allocS s).bytesUnclaimed))
        hpres.1 hpres.2 rfl
      split at h
      next hB => exact Bool.noConfusion (congrArg Prod.fst h)
      next hB =>
        have h2 := congrArg Prod.snd h
        dsimp only at h2
        have htext : (skipLoop (rbuf.rem.length + 2) true rbuf
            (allocS s).bytesUnclaimed).buf.token.getD [] ≠ [] := by
          intro hnil
          have hraw0 : (skipLoop (rbuf.rem.length + 2) true rbuf
              (allocS s).bytesUnclaimed).raw = [] := by
            rw [HL.1, hnil]
          have hterm0 : ((skipLoop (rbuf.rem.length + 2) true rbuf
              (allocS s).bytesUnclaimed).term.getD []).length = 0 := by
            rw [HL.2.1]
            rw [HL.2.2.2.1 hnil]
            rfl
          exact hB ⟨hraw0, hterm0⟩
        refine ⟨?_, ?_, ?_⟩
        · rw [← h2, (processRecord_buf _ _ _).1]
          dsimp only
          exact htext
        · rw [← h2, (processRecord_buf _ _ _).1]
          dsimp only
          exact HL.2.2.1
        · rw [← h2, (processRecord_buf _ _ _).1, (processRecord_buf _ _ _).2]
          dsimp only
          have hb1 := HL.2.2.2.2
          rw [HL.1] at hb1
          have hau := allocS_unclaimed s
          omega

/-- A failing advance on a non-nil reader keeps the driver well-formed and
cannot grow unclaimed-plus-budget. -/
theorem scanStep_false_budget (s s' : Scanner) (hW : WFb s.buf) (hrd : s.readerNil = false)
    (h : scanStep s = (false, s')) :
    WFb s'.buf ∧ s'.bytesUnclaimed + bufBudget s'.buf ≤ s.bytesUnclaimed + bufBudget s.buf := by
  cases hr : bufScan (allocS s).buf with
  | mk rb rbuf =>
  rw [scanStep_eq s (rb, rbuf)
    (skipLoop (rbuf.rem.length + 2) rb rbuf (allocS s).bytesUnclaimed) hr rfl] at h
  dsimp only at h
  rw [if_neg (show ¬ ((allocS s).readerNil = true) by simp [allocS_readerNil, hrd])] at h
  cases rb
  · rw [if_pos (show ¬ (false = true) from by decide)] at h
    injection h with h1 h2
    have hr2 : bufScan s.buf = (false, rbuf) := by
      rw [← allocS_buf s]
      exact hr
    have hpres := bufScan_WFb_TokOK s.buf hW
    rw [hr2] at hpres
    dsimp only at hpres
    have hfb := bufScan_false_budget s.buf rbuf hr2
    have hbuf : s'.buf = rbuf := by rw [← h2]; rfl
    have huncl : s'.bytesUnclaimed = (allocS s).bytesUnclaimed := by rw [← h2]; rfl
    rw [hbuf, huncl, allocS_unclaimed]
    exact ⟨hpres.1, by omega⟩
  · rw [if_neg (show ¬ ¬ (true = true) from by decide)] at h
    have hr2 : bufScan s.buf = (true, rbuf) := by
      rw [← allocS_buf s]
      exact hr
    have hpres := bufScan_WFb_TokOK s.buf hW
    rw [hr2] at hpres
    dsimp only at hpres
    have htb := bufScan_true_budget s.buf rbuf hr2
    have HL := skipLoop_main (rbuf.rem.length + 2) true rbuf ((allocS s).bytesUnclaimed)
      (skipLoop (rbuf.rem.length + 2) true rbuf ((allocS s).bytesUnclaimed))
      hpres.1 hpres.2 rfl
    split at h
    next hB =>
      injection h with h1 h2
      have hbuf : s'.buf =
          (skipLoop (rbuf.rem.length + 2) true rbuf (allocS s).bytesUnclaimed).buf := by
        rw [← h2]
      have huncl : s'.bytesUnclaimed =
          (skipLoop (rbuf.rem.length + 2) true rbuf (allocS s).bytesUnclaimed).unclaimed := by
        rw [← h2]
      rw [hbuf, huncl]
      refine ⟨HL.2.2.1, ?_⟩
      have hb1 := HL.2.2.2.2
      have hau := allocS_unclaimed s
      omega
    next hB =>
      have h1 := congrArg Prod.fst h
      rw [processRecord_fst] at h1
      exact Bool.noConfusion h1


/-- The segments tile the byte range from `a` to `b`: each segment starts
where the previous one ended. -/
def ChainFrom : Nat → List Segment → Nat → Prop
  | a, [], b => a = b
  | a, sg :: rest, b => sg.lowerOffset = a ∧ ChainFrom (a + sg.length) rest b

/-- Closed form of appending one element to `range'`. -/
theorem range'_concat_one : ∀ (a k : Nat), List.range' a (k + 1) = List.range' a k ++ [a + k] := by
  intro a k
  induction k generalizing a with
  | zero => simp [List.range']
  | succ m ih =>
    have h1 : List.range' a (m + 1 + 1) = a :: List.range' (a + 1) (m + 1) := rfl
    have h2 : List.range' a (m + 1) = a :: List.range' (a + 1) m := rfl
    rw [h1, ih (a + 1), h2]
    have h3 : a + 1 + m = a + (m + 1) := by omega
    rw [h3]
    rfl

/-- `range'` from 1 grows by the new length at the right end. -/
theorem range1_concat (k : Nat) : List.range' 1 (k + 1) = List.range' 1 k ++ [k + 1] := by
  rw [range'_concat_one, Nat.add_comm 1 k]

/-- Appending a segment that starts exactly at the chain's end extends the
chain by its length. -/
theorem ChainFrom_append (st : Nat) (segs : List Segment) (lo : Nat) (sg : Segment)
    (h : ChainFrom st segs lo) (hsg : sg.lowerOffset = lo) :
    ChainFrom st (segs ++ [sg]) (lo + sg.length) := by
  induction segs generalizing st with
  | nil =>
    simp only [ChainFrom] at h
    subst h
    exact ⟨hsg, rfl⟩
  | cons x t ihl =>
    simp only [ChainFrom, List.cons_append] at h ⊢
    exact ⟨h.1, ihl (st + x.length) h.2⟩

/-- Every segment of a chain starts at or after the chain's start. -/
theorem ChainFrom_le (a : Nat) (l : List Segment) (e : Nat) (h : ChainFrom a l e) :
    ∀ sg ∈ l, a ≤ sg.lowerOffset := by
  induction l generalizing a with
  | nil =>
    intro sg hsg
    simp at hsg
  | cons x t ihl =>
    intro sg hsg
    simp only [ChainFrom] at h
    rcases List.mem_cons.mp hsg with h1 | h2
    · rw [h1, h.1]
    · have := ihl (a + x.length) h.2 sg h2
      omega

/-- A chain of segments of positive length has pairwise disjoint byte ranges
with strictly increasing offsets. -/
theorem ChainFrom_pairwise (a e : Nat) (l : List Segment) (h : ChainFrom a l e)
    (hl : ∀ sg ∈ l, 1 ≤ sg.length) :
    l.Pairwise (fun x y => x.lowerOffset + x.length ≤ y.lowerOffset ∧
      x.lowerOffset < y.lowerOffset) := by
  induction l generalizing a with
  | nil => exact List.Pairwise.nil
  | cons x t ihl =>
    simp only [ChainFrom] at h
    refine List.Pairwise.cons ?_
      (ihl (a + x.length) h.2 (fun sg hs => hl sg (List.mem_cons_of_mem _ hs)))
    intro y hy
    have h1 := ChainFrom_le (a + x.length) t e h.2 y hy
    have hx1 := hl x (List.mem_cons_self x t)
    exact ⟨by rw [h.1]; omega, by rw [h.1]; omega⟩

/-- The end of a chain is its start plus the total segment length. -/
theorem ChainFrom_sum (a : Nat) (l : List Segment) (e : Nat) (h : ChainFrom a l e) :
    e = a + (l.map Segment.length).sum := by
  induction l generalizing a with
  | nil =>
    simp only [ChainFrom] at h
    simp [← h]
  | cons x t ihl =>
    simp only [ChainFrom] at h
    have := ihl (a + x.length) h.2
    simp only [List.map_cons, List.sum_cons]
    omega

/-- The three coverage properties of a produced segment list: contiguous
ordinals `1..k`, positive lengths, and a tiling of some byte range that ends
at or before `N`. -/
def SegsOK (st N : Nat) (l : List Segment) : Prop :=
  l.map Segment.ordinal = List.range' 1 l.length ∧
  (∀ sg ∈ l, 1 ≤ sg.length) ∧
  ∃ e, ChainFrom st l e ∧ e ≤ N

/-- Closing one segment of positive length at the end of a valid chain keeps
every coverage property. -/
theorem SegsOK_close (N k lo st : Nat) (segs : List Segment) (cur : List Char) (u : Nat)
    (hord : segs.map Segment.ordinal = List.range' 1 k) (hlen : segs.length = k)
    (hch : ChainFrom st segs lo) (hsl : ∀ sg ∈ segs, 1 ≤ sg.length)
    (hcur : cur ≠ []) (hb : lo + cur.length + u ≤ N) :
    SegsOK st N (segs ++ [closeSegment (k + 1) lo cur u]) := by
  refine ⟨?_, ?_, ?_⟩
  · rw [List.map_append, hord, List.length_append, hlen]
    simp [closeSegment, range1_concat]
  · intro sg hsg
    rcases List.mem_append.mp hsg with h1 | h2
    · exact hsl sg h1
    · rw [List.mem_singleton.mp h2, closeSegment]
      have := List.length_pos.mpr hcur
      dsimp only
      omega
  · refine ⟨lo + (closeSegment (k + 1) lo cur u).length,
      ChainFrom_append st segs lo _ hch rfl, ?_⟩
    rw [closeSegment]
    dsimp only
    omega

/-- Invariant of the main `Partition` loop (header already evaluated): given
a valid chain of closed segments and enough byte budget, every extension the
loop performs keeps the coverage properties, and the final list satisfies
them with the same chain start. -/
theorem partitionGo_invariant (hcb : HeaderCheckFn) (n : Nat) (ex : Bool) (N : Nat)
    (hn : 0 < n) :
    ∀ (fuel : Nat) (s : Scanner) (k lo st : Nat) (segs : List Segment) (cur : List Char)
      (r : Nat),
    s.readerNil = false → WFb s.buf →
    segs.map Segment.ordinal = List.range' 1 k → segs.length = k →
    ChainFrom st segs lo →
    (∀ sg ∈ segs, 1 ≤ sg.length) →
    (0 < r → cur ≠ []) →
    lo + cur.length + s.bytesUnclaimed + bufBudget s.buf ≤ N →
    SegsOK st N (partitionGo hcb n ex fuel s k lo segs true cur r) := by
  intro fuel
  induction fuel with
  | zero =>
    intro s k lo st segs cur r hrd hW hord hlen hch hsl hcur hbud
    simp only [partitionGo]
    split
    next hr0 =>
      exact SegsOK_close N k lo st segs cur s.bytesUnclaimed hord hlen hch hsl (hcur hr0)
        (by omega)
    next hr0 =>
      refine ⟨?_, hsl, lo, hch, by omega⟩
      rw [hlen]
      exact hord
  | succ f ih =>
    intro s k lo st segs cur r hrd hW hord hlen hch hsl hcur hbud
    simp only [partitionGo]
    cases hstep : scanStep s with
    | mk b s1 =>
    cases b
    · have hfb := scanStep_false_budget s s1 hW hrd hstep
      dsimp only
      split
      next hr0 =>
        exact SegsOK_close N k lo st segs cur s1.bytesUnclaimed hord hlen hch hsl (hcur hr0)
          (by omega)
      next hr0 =>
        refine ⟨?_, hsl, lo, hch, by omega⟩
        rw [hlen]
        exact hord
    · have hrd1 : s1.readerNil = false := by
        have hpr := scanStep_readerNil s
        rw [hstep] at hpr
        exact hpr.trans hrd
      have htf := scanStep_true_facts s s1 hW hstep
      dsimp only
      split
      next hH => exact absurd trivial hH.1
      next hH =>
        by_cases hrn : r = n
        · rw [if_pos hrn]
          have hr0 : 0 < r := by omega
          have hcne := hcur hr0
          have hord2 : (segs ++ [closeSegment (k + 1) lo cur s1.bytesUnclaimed]).map
              Segment.ordinal = List.range' 1 (k + 1) := by
            rw [List.map_append, hord, range1_concat]
            simp [closeSegment]
          have hlen2 : (segs ++ [closeSegment (k + 1) lo cur s1.bytesUnclaimed]).length
              = k + 1 := by
            simp [hlen]
          have hch2 : ChainFrom st (segs ++ [closeSegment (k + 1) lo cur s1.bytesUnclaimed])
              (lo + cur.length + s1.bytesUnclaimed) := by
            have hx := ChainFrom_append st segs lo
              (closeSegment (k + 1) lo cur s1.bytesUnclaimed) hch rfl
            have h3 : lo + (closeSegment (k + 1) lo cur s1.bytesUnclaimed).length =
                lo + cur.length + s1.bytesUnclaimed := by
              rw [closeSegment]
              dsimp only
              omega
            rw [h3] at hx
            exact hx
          have hsl2 : ∀ sg ∈ segs ++ [closeSegment (k + 1) lo cur s1.bytesUnclaimed],
              1 ≤ sg.length := by
            intro sg hsg
            rcases List.mem_append.mp hsg with h1 | h2
            · exact hsl sg h1
            · rw [List.mem_singleton.mp h2, closeSegment]
              have := List.length_pos.mpr hcne
              dsimp only
              omega
          refine ih {s1 with bytesUnclaimed := 0} (k + 1) (lo + cur.length + s1.bytesUnclaimed)
            st (segs ++ [closeSegment (k + 1) lo cur s1.bytesUnclaimed])
            (s1.buf.token.getD []) 1 hrd1 htf.2.1 hord2 hlen2 hch2 hsl2
            (fun _ => htf.1) ?_
          dsimp only
          have hb2 := htf.2.2
          omega
        · rw [if_neg hrn]
          refine ih s1 k lo st segs (cur ++ s1.buf.token.getD []) (r + 1) hrd1 htf.2.1
            hord hlen hch hsl
            (fun _ hnil => htf.1 (List.append_eq_nil.mp hnil).2) ?_
          rw [List.length_append]
          have hb2 := htf.2.2
          omega


/-- Claim C6: for every source, every positive segment count `n` and either
header-exclusion flag, `Partition` returns segments with contiguous ordinals
`1..k`, pairwise disjoint byte ranges that strictly increase in source order,
positive lengths, and a total: the sum of all segment lengths plus the bytes
before the first segment (the excluded header bytes, if any) never exceeds
the number of source bytes. -/
theorem C6_partition (src : List Char) (hcb : HeaderCheckFn) (n : Nat) (ex : Bool)
    (hn : 0 < n) :
    (Partition hcb (mkScanner (some src)) n ex).map Segment.ordinal =
      List.range' 1 (Partition hcb (mkScanner (some src)) n ex).length ∧
    List.Pairwise (fun x y => x.lowerOffset + x.length ≤ y.lowerOffset ∧
        x.lowerOffset < y.lowerOffset) (Partition hcb (mkScanner (some src)) n ex) ∧
    (∀ sg ∈ Partition hcb (mkScanner (some src)) n ex, 1 ≤ sg.length) ∧
    ∃ hdr e, ChainFrom hdr (Partition hcb (mkScanner (some src)) n ex) e ∧
      hdr + ((Partition hcb (mkScanner (some src)) n ex).map Segment.length).sum = e ∧
      e ≤ src.length := by
  have hkey : ∃ st, SegsOK st src.length (Partition hcb (mkScanner (some src)) n ex) := by
    simp only [Partition, Scanner.Reset]
    have hrem : (mkScanner (some src)).buf.rem = src := rfl
    rw [hrem]
    have hfuel : src.length + 2 = src.length + 1 + 1 := rfl
    rw [hfuel]
    simp only [partitionGo]
    cases hstep : scanStep (mkScanner (some src)) with
    | mk b s1 =>
    cases b
    · refine ⟨0, ?_⟩
      dsimp only
      rw [if_neg (show ¬ (0 > 0) from by omega)]
      exact ⟨rfl, by simp, 0, rfl, by omega⟩
    · have hW0 : WFb (mkScanner (some src)).buf := fun hx => absurd hx (by simp [mkScanner])
      have hrd0 : (mkScanner (some src)).readerNil = false := rfl
      have hmu : (mkScanner (some src)).bytesUnclaimed = 0 := rfl
      have hbb0 : bufBudget (mkScanner (some src)).buf = src.length := by
        simp [mkScanner, bufBudget]
      have htf := scanStep_true_facts _ s1 hW0 hstep
      have hrd1 : s1.readerNil = false := by
        have hpr := scanStep_readerNil (mkScanner (some src))
        rw [hstep] at hpr
        exact hpr.trans hrd0
      dsimp only
      split
      next hH =>
        refine ⟨(s1.buf.token.getD []).length + s1.bytesUnclaimed, ?_⟩
        refine partitionGo_invariant hcb n ex src.length hn (src.length + 1)
          {s1 with bytesUnclaimed := 0} 0 _ _ [] [] 0 hrd1 htf.2.1 rfl rfl rfl (by simp)
          (fun h => absurd h (by omega)) ?_
        dsimp only
        have hb2 := htf.2.2
        rw [hmu, hbb0] at hb2
        simp only [List.length_nil]
        omega
      next hH =>
        refine ⟨0, ?_⟩
        simp only [ite_self, List.nil_append]
        rw [if_neg (show ¬ (0 = n) from by omega)]
        refine partitionGo_invariant hcb n ex src.length hn (src.length + 1) s1 0 0 0 []
          (s1.buf.token.getD []) 1 hrd1 htf.2.1 rfl rfl rfl (by simp) (fun _ => htf.1) ?_
        have hb2 := htf.2.2
        rw [hmu, hbb0] at hb2
        omega
  obtain ⟨st, hOK⟩ := hkey
  obtain ⟨hord, hsl, e, hch, he⟩ := hOK
  exact ⟨hord, ChainFrom_pairwise st e _ hch hsl, hsl,
    st, e, hch, (ChainFrom_sum st _ e hch).symm, he⟩

/-- Claim C6, witness: partitioning the three-byte source `"a,b"` into
segments of one record each satisfies every coverage property (the positive
segment count hypothesis holds for `n = 1`). -/
theorem C6_partition_witness :
    (Partition headerCheckAssumeNoHeader (mkScanner (some (chars "a,b"))) 1 false).map
        Segment.ordinal =
      List.range' 1
        (Partition headerCheckAssumeNoHeader (mkScanner (some (chars "a,b"))) 1 false).length ∧
    List.Pairwise (fun x y => x.lowerOffset + x.length ≤ y.lowerOffset ∧
        x.lowerOffset < y.lowerOffset)
      (Partition headerCheckAssumeNoHeader (mkScanner (some (chars "a,b"))) 1 false) ∧
    (∀ sg ∈ Partition headerCheckAssumeNoHeader (mkScanner (some (chars "a,b"))) 1 false,
      1 ≤ sg.length) ∧
    ∃ hdr e,
      ChainFrom hdr
        (Partition headerCheckAssumeNoHeader (mkScanner (some (chars "a,b"))) 1 false) e ∧
      hdr + ((Partition headerCheckAssumeNoHeader (mkScanner (some (chars "a,b"))) 1
          false).map Segment.length).sum = e ∧
      e ≤ (chars "a,b").length :=
  C6_partition (chars "a,b") headerCheckAssumeNoHeader 1 false (by decide)


end PermissiveCsv
